import Mathlib

/-!
Verification of the reliable messaging core of `networkedphysics-gdc2015`.

The development shallowly embeds the bit-packed serialization layer
(`src/include/Stream.h`), the block codec `serialize_block`, the DNS resolver
(`src/src/DNSResolver.cpp`), and — where the implementation files are absent
from the tree (BitPacker.h, Connection, ReliableMessageChannel) — models of
those components written from the specification document.
-/

namespace Protocol

/-! ### Bit-level model

Modelled from the spec: `BitPacker.h` (BitWriter / BitReader) is not in the
source tree.  Per spec §4.1 the writer accumulates bits LSB-first and the
reader mirrors it; per spec §9 a read past the end of the buffer currently
returns zero bits.  We represent the writer's accumulated output as a list of
bits and the reader as a byte buffer plus a bit index. -/

/-- LSB-first list of the low `n` bits of `v`. -/
def natToBits : Nat → Nat → List Bool
  | _, 0 => []
  | v, n + 1 => (v % 2 == 1) :: natToBits (v / 2) n

/-- Value of an LSB-first list of bits. -/
def bitsToNat : List Bool → Nat
  | [] => 0
  | b :: l => 2 * bitsToNat l + (if b then 1 else 0)

@[simp] theorem length_natToBits (v n : Nat) : (natToBits v n).length = n := by
  induction n generalizing v with
  | zero => rfl
  | succ n ih => simp [natToBits, ih]

theorem bitsToNat_lt (l : List Bool) : bitsToNat l < 2 ^ l.length := by
  induction l with
  | nil => simp [bitsToNat]
  | cons b l ih =>
    simp only [bitsToNat, List.length_cons, pow_succ]
    rcases b <;> simp <;> omega

theorem bitsToNat_natToBits (v n : Nat) :
    bitsToNat (natToBits v n) = v % 2 ^ n := by
  induction n generalizing v with
  | zero => simp [natToBits, bitsToNat, Nat.mod_one]
  | succ n ih =>
    simp only [natToBits, bitsToNat, ih]
    rw [show (2 : Nat) ^ (n + 1) = 2 * 2 ^ n by ring, Nat.mod_mul]
    rcases Nat.mod_two_eq_zero_or_one v with h | h <;> simp [h] <;> omega

theorem natToBits_mod (v n : Nat) : natToBits (v % 2 ^ n) n = natToBits v n := by
  induction n generalizing v with
  | zero => rfl
  | succ n ih =>
    simp only [natToBits, List.cons.injEq]
    refine ⟨?_, ?_⟩
    · rw [show (2 : Nat) ^ (n + 1) = 2 * 2 ^ n by ring, Nat.mod_mul_right_mod]
    · rw [show (2 : Nat) ^ (n + 1) = 2 * 2 ^ n by ring, Nat.mod_mul_right_div_self, ih]

/-- Bit `j` of an LSB-first list, read through `bitsToNat`. -/
theorem bitsToNat_div_pow_mod (l : List Bool) (j : Nat) :
    bitsToNat l / 2 ^ j % 2 = (if l.getD j false then 1 else 0) := by
  induction l generalizing j with
  | nil =>
    simp [bitsToNat, List.getD, Nat.zero_div]
  | cons b t ih =>
    cases j with
    | zero =>
      simp only [bitsToNat, pow_zero, Nat.div_one, List.getD_cons_zero]
      rcases b <;> simp <;> omega
    | succ j =>
      have hdiv : bitsToNat (b :: t) / 2 = bitsToNat t := by
        simp only [bitsToNat]
        rcases b <;> simp <;> omega
      rw [show (2 : Nat) ^ (j + 1) = 2 * 2 ^ j by ring, ← Nat.div_div_eq_div_mul,
        hdiv, ih, List.getD_cons_succ]

/-- The writer's flushed byte buffer: successive 8-bit chunks, LSB-first. -/
def bytesOfBits : List Bool → List Nat
  | [] => []
  | b0 :: b1 :: b2 :: b3 :: b4 :: b5 :: b6 :: b7 :: rest =>
      bitsToNat [b0, b1, b2, b3, b4, b5, b6, b7] :: bytesOfBits rest
  | l => [bitsToNat l]

theorem bytesOfBits_step : ∀ l : List Bool, l ≠ [] →
    bytesOfBits l = bitsToNat (l.take 8) :: bytesOfBits (l.drop 8) := by
  intro l h
  match l with
  | [] => exact absurd rfl h
  | [b0] => rfl
  | [b0, b1] => rfl
  | [b0, b1, b2] => rfl
  | [b0, b1, b2, b3] => rfl
  | [b0, b1, b2, b3, b4] => rfl
  | [b0, b1, b2, b3, b4, b5] => rfl
  | [b0, b1, b2, b3, b4, b5, b6] => rfl
  | b0 :: b1 :: b2 :: b3 :: b4 :: b5 :: b6 :: b7 :: rest => rfl

theorem bytesOfBits_getD (k : Nat) (l : List Bool) :
    (bytesOfBits l).getD k 0 = bitsToNat ((l.drop (8 * k)).take 8) := by
  induction k generalizing l with
  | zero =>
    by_cases h : l = []
    · simp [h, bytesOfBits, bitsToNat]
    · rw [bytesOfBits_step l h]
      simp
  | succ k ih =>
    by_cases h : l = []
    · simp [h, bytesOfBits, bitsToNat]
    · rw [bytesOfBits_step l h]
      simp only [List.getD_cons_succ, ih, List.drop_drop]
      have he : 8 + 8 * k = 8 * (k + 1) := by ring
      rw [he]

/-- Bit `i` of a byte buffer, LSB-first within each byte; reads past the end
of the buffer give `false` (spec §9: the reader returns zero bits there). -/
def bitAt (data : List Nat) (i : Nat) : Bool :=
  data.getD (i / 8) 0 / 2 ^ (i % 8) % 2 == 1

theorem bitAt_bytesOfBits (l : List Bool) (i : Nat) :
    bitAt (bytesOfBits l) i = l.getD i false := by
  unfold bitAt
  rw [bytesOfBits_getD, bitsToNat_div_pow_mod]
  have htake : ((l.drop (8 * (i / 8))).take 8).getD (i % 8) false
      = (l.drop (8 * (i / 8))).getD (i % 8) false := by
    simp only [List.getD_eq_getElem?_getD]
    rw [List.getElem?_take_of_lt (Nat.mod_lt _ (by omega))]
  rw [htake]
  simp only [List.getD_eq_getElem?_getD, List.getElem?_drop]
  rw [show 8 * (i / 8) + i % 8 = i by omega]
  rcases h : l[i]?.getD false <;> simp [h]

/-- `FlushBits`: pad the written bits with zeroes up to a byte boundary. -/
def padBits (l : List Bool) : List Bool :=
  l ++ List.replicate ((8 - l.length % 8) % 8) false

theorem getD_append_allFalse (l : List Bool) (k i : Nat) :
    (l ++ List.replicate k false).getD i false = l.getD i false := by
  simp only [List.getD_eq_getElem?_getD]
  by_cases h : i < l.length
  · rw [List.getElem?_append_left h]
  · rw [List.getElem?_append_right (by omega)]
    rw [List.getElem?_replicate]
    have : l[i]? = none := List.getElem?_eq_none (by omega)
    by_cases h2 : i - l.length < k <;> simp [h2, this]

theorem getD_padBits (l : List Bool) (i : Nat) :
    (padBits l).getD i false = l.getD i false :=
  getD_append_allFalse l _ i

/-- Modelled from the spec: `BitPacker.h` is absent from the tree.  The
`BitWriter` of spec §4.1 packs unsigned integers at N bits, LSB-first; we
record the accumulated bit sequence.  `WriteBits value n` appends the low
`n` bits of `value` (the spec requires `value < 2^n`, under which the
truncation is the identity). -/
structure BitWriter where
  bits : List Bool

def BitWriter.writeBits (w : BitWriter) (value : Nat) (n : Nat) : BitWriter :=
  ⟨w.bits ++ natToBits value n⟩

/-- `FlushBits` byte-aligns the tail (spec §4.1). -/
def BitWriter.flushBits (w : BitWriter) : BitWriter :=
  ⟨padBits w.bits⟩

def BitWriter.getData (w : BitWriter) : List Nat :=
  bytesOfBits w.bits

/-- Modelled from the spec: `GetBytes()` returns `ceil(bits_written / 8)`
(spec §4.1). -/
def BitWriter.getBytes (w : BitWriter) : Nat :=
  (w.bits.length + 7) / 8

/-- Modelled from the spec: the `BitReader` of spec §4.1 mirrors the writer
over a byte buffer; a read past the end of the buffer returns zero bits
(spec §9). -/
structure BitReader where
  data : List Nat
  bitIndex : Nat

def BitReader.readBits (r : BitReader) (n : Nat) : Nat × BitReader :=
  (bitsToNat ((List.range n).map fun j => bitAt r.data (r.bitIndex + j)),
   ⟨r.data, r.bitIndex + n⟩)

/-- Bit length of `x` (smallest `b` with `x < 2^b`), with structural fuel. -/
def bitLengthAux : Nat → Nat → Nat
  | _, 0 => 0
  | x, fuel + 1 => if x = 0 then 0 else bitLengthAux (x / 2) fuel + 1

theorem lt_pow_bitLengthAux (fuel : Nat) :
    ∀ x, x < 2 ^ fuel → x < 2 ^ bitLengthAux x fuel := by
  induction fuel with
  | zero => intro x h; simpa [bitLengthAux] using h
  | succ fuel ih =>
    intro x h
    by_cases hx : x = 0
    · simp [bitLengthAux, hx]
    · have hdiv : x / 2 < 2 ^ fuel := by
        rw [pow_succ] at h
        omega
      have := ih (x / 2) hdiv
      simp only [bitLengthAux, hx, if_false]
      rw [pow_succ]
      omega

theorem bitLengthAux_min (fuel : Nat) :
    ∀ x b, x < 2 ^ b → bitLengthAux x fuel ≤ b := by
  induction fuel with
  | zero => intro x b _; simp [bitLengthAux]
  | succ fuel ih =>
    intro x b h
    by_cases hx : x = 0
    · simp [bitLengthAux, hx]
    · have hb : b ≠ 0 := by
        intro hb0
        rw [hb0] at h
        omega
      obtain ⟨b0, rfl⟩ := Nat.exists_eq_succ_of_ne_zero hb
      have hdiv : x / 2 < 2 ^ b0 := by
        rw [pow_succ] at h
        omega
      simp only [bitLengthAux, hx, if_false]
      have := ih (x / 2) b0 hdiv
      omega

/-- Modelled from the spec: `bits_required(min, max)` (declared in the absent
`BitPacker.h`) is `ceil(log2(max - min + 1))` (spec §4.1); computed as the
bit length of `max - min`, proved equal to the ceiling logarithm in
`bits_required_eq_clog`. -/
def bits_required (min max : Int) : Nat :=
  bitLengthAux (max - min).toNat 64

/-- `bits_required` matches the spec formula `ceil(log2(max - min + 1))`. -/
theorem bits_required_eq_clog (mn mx : Int) (h : (mx - mn).toNat < 2 ^ 64) :
    bits_required mn mx = Nat.clog 2 ((mx - mn).toNat + 1) := by
  set x := (mx - mn).toNat with hx
  apply Nat.le_antisymm
  · exact bitLengthAux_min 64 x _ (by
      have := Nat.le_pow_clog (by norm_num : 1 < 2) (x + 1)
      omega)
  · rw [← Nat.le_pow_iff_clog_le (by norm_num : 1 < 2)]
    show x + 1 ≤ 2 ^ bitLengthAux x 64
    have := lt_pow_bitLengthAux 64 x h
    omega

/-- Conversion of an integer to `uint32_t` (C++ conversion is reduction
modulo `2^32`). -/
def u32OfInt (x : Int) : Nat :=
  (x % ((2 : Int) ^ 32)).toNat

/-- Conversion of a `uint32_t` value to `int32_t` (wraps above `2^31`). -/
def int32OfU32 (u : Nat) : Int :=
  if u < 2 ^ 31 then (u : Int) else (u : Int) - 2 ^ 32

/-- `int32_t` arithmetic wraparound. -/
def int32Wrap (x : Int) : Int :=
  (x + 2 ^ 31) % 2 ^ 32 - 2 ^ 31

/-! ### The Stream class, translated from `src/include/Stream.h`. -/

inductive StreamMode
  | read
  | write
deriving DecidableEq

structure Stream where
  mode : StreamMode
  writer : BitWriter
  reader : BitReader

def Stream.isReading (s : Stream) : Bool :=
  s.mode = StreamMode.read

def Stream.isWriting (s : Stream) : Bool :=
  s.mode = StreamMode.write

/-- `Stream::SerializeInteger` (Stream.h:43-63): in write mode writes
`value - min` as an unsigned value in `bits_required(min, max)` bits; in
read mode reads that many bits and returns `(int32_t) unsigned_value + min`.
The source performs no range check on `value` in either mode. -/
def Stream.serializeInteger (s : Stream) (value min max : Int) :
    Stream × Int :=
  let bits := bits_required min max
  match s.mode with
  | .write =>
      ({ s with writer := s.writer.writeBits (u32OfInt (value - min)) bits },
       value)
  | .read =>
      let (u, r) := s.reader.readBits bits
      ({ s with reader := r }, int32Wrap (int32OfU32 u + min))

/-- `Stream::SerializeBits` (Stream.h:65-74). -/
def Stream.serializeBits (s : Stream) (value : Nat) (n : Nat) :
    Stream × Nat :=
  match s.mode with
  | .write => ({ s with writer := s.writer.writeBits value n }, value)
  | .read =>
      let (u, r) := s.reader.readBits n
      ({ s with reader := r }, u)

/-- `Stream::Flush` (Stream.h:76-80). -/
def Stream.flush (s : Stream) : Stream :=
  match s.mode with
  | .write => { s with writer := s.writer.flushBits }
  | .read => s

/-- `Stream::GetBytes` (Stream.h:87-93): the writer's byte count when
writing, and `0` when reading. -/
def Stream.getBytes (s : Stream) : Nat :=
  match s.mode with
  | .write => s.writer.getBytes
  | .read => 0

/-- A write-mode stream over an empty buffer (`Stream(STREAM_Write, ...)`). -/
def writeStream : Stream :=
  ⟨.write, ⟨[]⟩, ⟨[], 0⟩⟩

/-- A read-mode stream over a byte buffer (`Stream(STREAM_Read, ...)`). -/
def readStream (buffer : List Nat) : Stream :=
  ⟨.read, ⟨[]⟩, ⟨buffer, 0⟩⟩

/-! ### Read-back correctness of the bit layer -/

theorem map_range_getD (l : List Bool) :
    (List.range l.length).map (fun j => l.getD j false) = l := by
  induction l with
  | nil => rfl
  | cons b t ih =>
    rw [List.length_cons, List.range_succ_eq_map, List.map_cons, List.map_map]
    simp only [List.getD_cons_zero]
    rw [show ((fun j => (b :: t).getD j false) ∘ Nat.succ)
          = (fun j => t.getD j false) by funext j; simp [List.getD_cons_succ]]
    rw [ih]

theorem getD_middle (front mid rest : List Bool) (j : Nat) (h : j < mid.length) :
    (front ++ mid ++ rest).getD (front.length + j) false = mid.getD j false := by
  simp only [List.getD_eq_getElem?_getD, List.append_assoc]
  rw [List.getElem?_append_right (by omega)]
  rw [show front.length + j - front.length = j by omega]
  rw [List.getElem?_append_left h]

/-- Reading `n` bits at position `front.length` of the flushed buffer of
`front ++ natToBits v n ++ rest` recovers `v % 2^n`. -/
theorem readBits_value (r : BitReader) (front rest : List Bool) (v n : Nat)
    (hdata : r.data = bytesOfBits (padBits (front ++ natToBits v n ++ rest)))
    (hidx : r.bitIndex = front.length) :
    (r.readBits n).1 = v % 2 ^ n := by
  unfold BitReader.readBits
  simp only
  have hmap : (List.range n).map (fun j => bitAt r.data (r.bitIndex + j))
      = (List.range n).map (fun j => (natToBits v n).getD j false) := by
    apply List.map_congr_left
    intro j hj
    rw [hdata, hidx, bitAt_bytesOfBits, getD_padBits]
    exact getD_middle _ _ _ _ (by simpa using List.mem_range.mp hj)
  rw [hmap]
  have := map_range_getD (natToBits v n)
  rw [length_natToBits] at this
  rw [this, bitsToNat_natToBits]

/-! ### Serialization-call sequences (spec §8, property 3)

A sequence of `SerializeInteger` / `SerializeBits` calls, as performed by
packet `Serialize` methods through `Stream`. -/

inductive SerOp
  | serInt (value min max : Int)
  | serBits (value : Nat) (numBits : Nat)
deriving DecidableEq

/-- Perform one op on a stream in its current mode, write-back value style
(the `serialize_int` / `serialize_bits` macros of Stream.h). -/
def runOp (s : Stream) : SerOp → Stream × SerOp
  | .serInt v mn mx =>
      let (s1, v1) := s.serializeInteger v mn mx
      (s1, .serInt v1 mn mx)
  | .serBits v n =>
      let (s1, v1) := s.serializeBits v n
      (s1, .serBits v1 n)

def runOps : Stream → List SerOp → Stream × List SerOp
  | s, [] => (s, [])
  | s, op :: rest =>
      let (s1, op1) := runOp s op
      let (s2, ops1) := runOps s1 rest
      (s2, op1 :: ops1)

/-- The bits a write-mode stream emits for one op (follows the write branch
of `SerializeInteger` / `SerializeBits`). -/
def opBits : SerOp → List Bool
  | .serInt v mn mx => natToBits (u32OfInt (v - mn)) (bits_required mn mx)
  | .serBits v n => natToBits v n

def opsBits (ops : List SerOp) : List Bool :=
  ops.flatMap opBits

/-- A call is legal when the value lies in its declared range and the range
is a genuine int32 range (spec §4.1). -/
def validOp : SerOp → Bool
  | .serInt v mn mx =>
      decide (mn < mx) && decide (mn ≤ v) && decide (v ≤ mx) &&
      decide (-(2 ^ 31) ≤ mn) && decide (mx < 2 ^ 31)
  | .serBits v n =>
      decide (1 ≤ n) && decide (n ≤ 32) && decide (v < 2 ^ n)

theorem pow31_int : (2 : Int) ^ 31 = 2147483648 := by norm_num

theorem pow32_int : (2 : Int) ^ 32 = 4294967296 := by norm_num

theorem int32Wrap_id (x : Int) (h1 : -(2 ^ 31) ≤ x) (h2 : x < 2 ^ 31) :
    int32Wrap x = x := by
  unfold int32Wrap
  rw [Int.emod_eq_of_lt (by omega) (by rw [pow32_int]; rw [pow31_int] at h2 ⊢; omega)]
  omega

theorem int32Wrap_sub_pow32 (x : Int) : int32Wrap (x - 2 ^ 32) = int32Wrap x := by
  unfold int32Wrap
  rw [show x - 2 ^ 32 + 2 ^ 31 = x + 2 ^ 31 + 2 ^ 32 * (-1) by ring,
    Int.add_mul_emod_self_left]

theorem toNat_sub_lt_pow_bits_required (mn mx v : Int) (h1 : mn ≤ v) (h2 : v ≤ mx)
    (h64 : (mx - mn).toNat < 2 ^ 64) :
    (v - mn).toNat < 2 ^ bits_required mn mx := by
  simp only [bits_required]
  have := lt_pow_bitLengthAux 64 (mx - mn).toNat h64
  omega

/-- Decoding the value written by a legal `SerializeInteger` call recovers it
exactly. -/
theorem serInt_decode (v mn mx : Int) (h1 : mn ≤ v) (h2 : v ≤ mx)
    (h3 : -(2 ^ 31) ≤ mn) (h4 : mx < 2 ^ 31) :
    int32Wrap (int32OfU32 (u32OfInt (v - mn) % 2 ^ bits_required mn mx) + mn)
      = v := by
  have hnn : (0 : Int) ≤ v - mn := by omega
  have hlt32 : v - mn < 2 ^ 32 := by rw [pow32_int]; rw [pow31_int] at h3 h4; omega
  have hu : u32OfInt (v - mn) = (v - mn).toNat := by
    unfold u32OfInt
    rw [Int.emod_eq_of_lt hnn hlt32]
  have hub : (v - mn).toNat < 2 ^ bits_required mn mx :=
    toNat_sub_lt_pow_bits_required mn mx v h1 h2
      (by rw [pow31_int] at h3 h4; norm_num; omega)
  rw [hu, Nat.mod_eq_of_lt hub]
  have hcast : (((v - mn).toNat : Nat) : Int) = v - mn := Int.toNat_of_nonneg hnn
  unfold int32OfU32
  by_cases hc : (v - mn).toNat < 2 ^ 31
  · rw [if_pos hc, hcast, show v - mn + mn = v by ring]
    exact int32Wrap_id v (by omega) (by omega)
  · rw [if_neg hc, hcast, show v - mn - 2 ^ 32 + mn = v - 2 ^ 32 by ring,
      int32Wrap_sub_pow32]
    exact int32Wrap_id v (by omega) (by omega)

/-- Running a list of ops on a write-mode stream appends exactly `opsBits`
and leaves the values untouched. -/
theorem runOps_write (ops : List SerOp) (s : Stream) (h : s.mode = .write) :
    runOps s ops
      = ({ s with writer := ⟨s.writer.bits ++ opsBits ops⟩ }, ops) := by
  induction ops generalizing s with
  | nil =>
    simp [runOps, opsBits, List.flatMap]
  | cons op tl ih =>
    have hop : runOp s op
        = ({ s with writer := ⟨s.writer.bits ++ opBits op⟩ }, op) := by
      rcases op with ⟨v, mn, mx⟩ | ⟨v, n⟩ <;>
        simp [runOp, Stream.serializeInteger, Stream.serializeBits, h,
          BitWriter.writeBits, opBits]
    simp only [runOps, hop]
    rw [ih _ (by simp [h])]
    simp [opsBits, List.flatMap_cons, List.append_assoc]

/-- One op performed in read mode over a buffer holding its own encoding
recovers the op exactly. -/
theorem runOp_read (op : SerOp) (front rest : List Bool) (w : BitWriter)
    (hv : validOp op = true) :
    runOp ⟨.read, w,
        ⟨bytesOfBits (padBits (front ++ opBits op ++ rest)), front.length⟩⟩ op
      = (⟨.read, w,
          ⟨bytesOfBits (padBits (front ++ opBits op ++ rest)),
           front.length + (opBits op).length⟩⟩, op) := by
  rcases op with ⟨v, mn, mx⟩ | ⟨v, n⟩
  · simp only [validOp, Bool.and_eq_true, decide_eq_true_eq] at hv
    obtain ⟨⟨⟨⟨hlt, h1⟩, h2⟩, h3⟩, h4⟩ := hv
    have hread := readBits_value
      ⟨bytesOfBits (padBits (front ++ opBits (SerOp.serInt v mn mx) ++ rest)),
       front.length⟩
      front rest (u32OfInt (v - mn)) (bits_required mn mx) rfl rfl
    simp only [BitReader.readBits, opBits] at hread
    simp only [runOp, Stream.serializeInteger, BitReader.readBits, opBits,
      length_natToBits]
    rw [hread]
    rw [serInt_decode v mn mx h1 h2 h3 h4]
  · simp only [validOp, Bool.and_eq_true, decide_eq_true_eq] at hv
    obtain ⟨⟨h1, h2⟩, h3⟩ := hv
    have hread := readBits_value
      ⟨bytesOfBits (padBits (front ++ opBits (SerOp.serBits v n) ++ rest)),
       front.length⟩
      front rest v n rfl rfl
    simp only [BitReader.readBits, opBits] at hread
    simp only [runOp, Stream.serializeBits, BitReader.readBits, opBits,
      length_natToBits]
    rw [hread, Nat.mod_eq_of_lt h3]

/-- Running a sequence of valid ops in read mode over a buffer that holds its
own encoding recovers every value. -/
theorem runOps_read (ops : List SerOp) :
    ∀ (front rest : List Bool) (w : BitWriter),
    (∀ op ∈ ops, validOp op = true) →
    runOps ⟨.read, w,
        ⟨bytesOfBits (padBits (front ++ opsBits ops ++ rest)), front.length⟩⟩
        ops
      = (⟨.read, w,
          ⟨bytesOfBits (padBits (front ++ opsBits ops ++ rest)),
           front.length + (opsBits ops).length⟩⟩, ops) := by
  induction ops with
  | nil =>
    intro front rest w _
    simp [runOps, opsBits, List.flatMap]
  | cons op tl ih =>
    intro front rest w hv
    have hassoc : front ++ opsBits (op :: tl) ++ rest
        = front ++ opBits op ++ (opsBits tl ++ rest) := by
      simp [opsBits, List.flatMap_cons, List.append_assoc]
    have hassoc2 : front ++ opBits op ++ (opsBits tl ++ rest)
        = (front ++ opBits op) ++ opsBits tl ++ rest := by
      simp [List.append_assoc]
    simp only [runOps]
    rw [hassoc, runOp_read op front (opsBits tl ++ rest) w
      (hv op (List.mem_cons_self op tl))]
    rw [hassoc2, show front.length + (opBits op).length
        = ((front ++ opBits op) : List Bool).length by simp]
    rw [ih (front ++ opBits op) rest w (fun o ho => hv o (List.mem_cons_of_mem _ ho))]
    simp [opsBits, List.flatMap_cons, List.append_assoc]
    omega

/-- The byte buffer produced by performing `ops` on a fresh write-mode
stream and flushing (the write/flush/`GetData` pattern of the tests). -/
def writeBuffer (ops : List SerOp) : List Nat :=
  ((runOps writeStream ops).1.flush).writer.getData

/-- C5: for every sequence of `SerializeInteger(v, min, max)` calls with
`min ≤ v ≤ max` and `SerializeBits(v, n)` calls with `1 ≤ n ≤ 32` and
`v < 2^n`, performed on a write-mode stream and flushed, performing the same
calls in order on a read-mode stream over the resulting buffer yields
exactly the original values. -/
theorem C5_bitstream_roundtrip (ops : List SerOp)
    (hv : ∀ op ∈ ops, validOp op = true) :
    (runOps (readStream (writeBuffer ops)) ops).2 = ops := by
  have hw := runOps_write ops writeStream rfl
  have hbuf : writeBuffer ops = bytesOfBits (padBits (opsBits ops)) := by
    unfold writeBuffer
    rw [hw]
    simp [Stream.flush, writeStream, BitWriter.flushBits, BitWriter.getData]
  have hlist : opsBits ops = [] ++ opsBits ops ++ [] := by simp
  rw [hbuf]
  unfold readStream
  rw [hlist]
  rw [show (0 : Nat) = ([] : List Bool).length from rfl]
  rw [runOps_read ops [] [] ⟨[]⟩ hv]

/-- The S6 scenario of spec §8: `SerializeInteger(-5, -10, 10)`,
`SerializeBits(0xDEADBEEF, 32)`, `SerializeInteger(0, 0, 255)`. -/
def s6ops : List SerOp :=
  [.serInt (-5) (-10) 10, .serBits 0xDEADBEEF 32, .serInt 0 0 255]

/-- Witness for C5 at the S6 scenario. -/
theorem C5_bitstream_roundtrip_witness :
    (∀ op ∈ s6ops, validOp op = true) ∧
    (runOps (readStream (writeBuffer s6ops)) s6ops).2 = s6ops :=
  ⟨by decide, C5_bitstream_roundtrip s6ops (by decide)⟩

/-- C3 counterexample: `SerializeInteger(11, -10, 10)` is out of range, yet
the write does not fail: the stream emits the usual `bits_required(-10,10)`
bits and reading the flushed buffer back yields `11` — an out-of-range value
was encoded and the write carried on. -/
theorem C3_counterexample :
    ¬ ((-10 : Int) ≤ 11 ∧ (11 : Int) ≤ 10) ∧
    (writeStream.serializeInteger 11 (-10) 10).1.writer.bits.length
      = bits_required (-10) 10 ∧
    ((readStream (writeBuffer [SerOp.serInt 11 (-10) 10])).serializeInteger
        0 (-10) 10).2 = 11 := by
  decide

/-- C3 (amended): `SerializeInteger(value, min, max)` in write mode encodes
`value - min` (as a `uint32_t`) in exactly `bits_required(min, max)
= ceil(log2(max - min + 1))` bits, performing NO range check: when
`value < min` or `value > max` the truncated `(value - min) mod 2^bits` is
encoded instead of the write failing.  Reading the emitted bits back yields
`(value - min) mod 2^bits`. -/
theorem C3_serializeInteger_write_no_range_check (s : Stream) (v mn mx : Int)
    (hw : s.mode = StreamMode.write) :
    (s.serializeInteger v mn mx).1.writer.bits.length
      = s.writer.bits.length + bits_required mn mx ∧
    (BitReader.readBits
        ⟨bytesOfBits (padBits ((s.serializeInteger v mn mx).1.writer.bits)),
         s.writer.bits.length⟩
        (bits_required mn mx)).1
      = u32OfInt (v - mn) % 2 ^ bits_required mn mx := by
  rcases s with ⟨mode, w, r⟩
  cases hw
  simp only [Stream.serializeInteger, BitWriter.writeBits]
  refine ⟨by simp, ?_⟩
  exact readBits_value _ w.bits [] (u32OfInt (v - mn)) (bits_required mn mx)
    (by simp) rfl

/-- Witness for the amended C3 at the out-of-range call
`SerializeInteger(11, -10, 10)` on a fresh write stream. -/
theorem C3_serializeInteger_write_no_range_check_witness :
    writeStream.mode = StreamMode.write ∧
    ((writeStream.serializeInteger 11 (-10) 10).1.writer.bits.length
      = writeStream.writer.bits.length + bits_required (-10) 10 ∧
    (BitReader.readBits
        ⟨bytesOfBits (padBits
          ((writeStream.serializeInteger 11 (-10) 10).1.writer.bits)),
         writeStream.writer.bits.length⟩
        (bits_required (-10) 10)).1
      = u32OfInt (11 - -10) % 2 ^ bits_required (-10) 10) :=
  ⟨rfl, C3_serializeInteger_write_no_range_check writeStream 11 (-10) 10 rfl⟩

/-- C4 (evidence of the code bug): a read past the end of the buffer signals
no failure.  Over a one-byte buffer `[0xAB]`, `SerializeBits(·, 32)` simply
returns `0xAB` (the missing 24 bits read as zero) and the stream continues;
a subsequent 8-bit read yields `0`.  The spec (and the TODO comments at
Stream.h:56-58 and Stream.h:73) require a decode failure that discards the
packet instead. -/
theorem C4_read_past_end_returns_zero :
    ((readStream [0xAB]).serializeBits 0 32).2 = 0xAB ∧
    (((readStream [0xAB]).serializeBits 0 32).1.serializeBits 0 8).2 = 0 := by
  decide

/-- C8: `GetBytes()` returns `0` on every read-mode stream, however many
bits have been read; the documented `ceil(bits_written / 8)` is produced
exactly when the stream is in write mode (Stream.h:87-93). -/
theorem C8_getBytes_by_mode (s : Stream) :
    (s.mode = StreamMode.read → s.getBytes = 0) ∧
    (s.mode = StreamMode.write →
      s.getBytes = (s.writer.bits.length + 7) / 8) := by
  rcases s with ⟨mode, w, r⟩
  cases mode <;> simp [Stream.getBytes, BitWriter.getBytes]

/-- Witness for C8: a read-mode stream that has consumed 16 bits still
reports `GetBytes() = 0`. -/
theorem C8_getBytes_by_mode_witness :
    ((readStream [1, 2, 3]).serializeBits 0 16).1.mode = StreamMode.read ∧
    ((readStream [1, 2, 3]).serializeBits 0 16).1.getBytes = 0 :=
  ⟨rfl, (C8_getBytes_by_mode ((readStream [1, 2, 3]).serializeBits 0 16).1).1 rfl⟩

/-! ### serialize_block, translated from `src/include/Stream.h:128-183`.

A `Block` is a `uint8_t` array, modelled as a `List Nat` of values `< 256`
(word packing uses `|` of disjoint byte ranges, which is `+` for in-range
bytes). -/

/-- The 32-bit little-endian word over bytes `i*4 .. i*4+3` of a block
(the write branch of the word loop, Stream.h:153-161). -/
def wordVal (blk : List Nat) (i : Nat) : Nat :=
  blk.getD (i * 4) 0 + blk.getD (i * 4 + 1) 0 * 2 ^ 8 +
    blk.getD (i * 4 + 2) 0 * 2 ^ 16 + blk.getD (i * 4 + 3) 0 * 2 ^ 24

/-- Scatter a decoded 32-bit word back into bytes `i*4 .. i*4+3`
(the read branch of the word loop, Stream.h:165-175). -/
def setWord (blk : List Nat) (i : Nat) (value : Nat) : List Nat :=
  (((blk.set (i * 4) (value % 2 ^ 8)).set (i * 4 + 1)
    (value / 2 ^ 8 % 2 ^ 8)).set (i * 4 + 2)
    (value / 2 ^ 16 % 2 ^ 8)).set (i * 4 + 3) (value / 2 ^ 24 % 2 ^ 8)

/-- One iteration of the word loop of `serialize_block`. -/
def blockWordStep (acc : Stream × List Nat) (i : Nat) : Stream × List Nat :=
  if acc.1.isWriting then
    ((acc.1.serializeBits (wordVal acc.2 i) 32).1, acc.2)
  else
    let p := acc.1.serializeBits 0 32
    (p.1, setWord acc.2 i p.2)

/-- One iteration of the tail-byte loop of `serialize_block`
(Stream.h:181-182). -/
def blockByteStep (tailIndex : Nat) (acc : Stream × List Nat) (i : Nat) :
    Stream × List Nat :=
  if acc.1.isWriting then
    ((acc.1.serializeBits (acc.2.getD (tailIndex + i) 0) 8).1, acc.2)
  else
    let p := acc.1.serializeBits 0 8
    (p.1, acc.2.set (tailIndex + i) p.2)

/-- `serialize_block(stream, block, maxBytes)` (Stream.h:128-183): serialize
`numBytesMinusOne` in `[0, maxBytes-1]`, allocate the block when reading,
then `numBytes / 4` packed 32-bit words followed by the remaining tail bytes
at 8 bits each. -/
def serialize_block (s : Stream) (blockIn : List Nat) (maxBytes : Nat) :
    Stream × List Nat :=
  let h := s.serializeInteger
    (if s.isWriting then (blockIn.length : Int) - 1 else 0) 0
    ((maxBytes : Int) - 1)
  let numBytes : Nat := (h.2 + 1).toNat
  let block0 := if s.isReading then List.replicate numBytes 0 else blockIn
  let numWords := numBytes / 4
  let p2 := (List.range numWords).foldl blockWordStep (h.1, block0)
  (List.range (numBytes - numWords * 4)).foldl
    (blockByteStep (numWords * 4)) p2

/-- The wire layout claimed for a block: the size header
`SerializeInteger(size-1, 0, maxBytes-1)`, then `floor(size/4)` little-endian
32-bit words covering the first `4*floor(size/4)` bytes, then the
`size mod 4` tail bytes at 8 bits each. -/
def blockOps (data : List Nat) (maxBytes : Nat) : List SerOp :=
  SerOp.serInt ((data.length : Int) - 1) 0 ((maxBytes : Int) - 1)
    :: (((List.range (data.length / 4)).map fun i =>
          SerOp.serBits (wordVal data i) 32)
      ++ ((List.range (data.length % 4)).map fun i =>
          SerOp.serBits (data.getD (data.length / 4 * 4 + i) 0) 8))


/-- In read mode the word loop keeps the mode and buffer and the block
length. -/
theorem foldl_blockWordStep_read_shape (idxs : List Nat) :
    ∀ acc : Stream × List Nat, acc.1.mode = StreamMode.read →
    ((idxs.foldl blockWordStep acc).1.mode = StreamMode.read ∧
     (idxs.foldl blockWordStep acc).1.reader.data = acc.1.reader.data ∧
     (idxs.foldl blockWordStep acc).2.length = acc.2.length) := by
  induction idxs with
  | nil => intro acc h; exact ⟨h, rfl, rfl⟩
  | cons i idxs ih =>
    rintro ⟨⟨mode, w, r⟩, blk⟩ h
    cases h
    have hstep : blockWordStep (⟨StreamMode.read, w, r⟩, blk) i
        = (⟨StreamMode.read, w, ⟨r.data, r.bitIndex + 32⟩⟩,
           setWord blk i (r.readBits 32).1) := by
      simp [blockWordStep, Stream.isWriting, Stream.serializeBits,
        BitReader.readBits]
    rw [List.foldl_cons, hstep]
    have := ih (⟨StreamMode.read, w, ⟨r.data, r.bitIndex + 32⟩⟩,
      setWord blk i (r.readBits 32).1) rfl
    simpa [setWord] using this

/-- In read mode the tail loop keeps the mode and buffer and the block
length. -/
theorem foldl_blockByteStep_read_shape (ti : Nat) (idxs : List Nat) :
    ∀ acc : Stream × List Nat, acc.1.mode = StreamMode.read →
    ((idxs.foldl (blockByteStep ti) acc).1.mode = StreamMode.read ∧
     (idxs.foldl (blockByteStep ti) acc).1.reader.data = acc.1.reader.data ∧
     (idxs.foldl (blockByteStep ti) acc).2.length = acc.2.length) := by
  induction idxs with
  | nil => intro acc h; exact ⟨h, rfl, rfl⟩
  | cons i idxs ih =>
    rintro ⟨⟨mode, w, r⟩, blk⟩ h
    cases h
    have hstep : blockByteStep ti (⟨StreamMode.read, w, r⟩, blk) i
        = (⟨StreamMode.read, w, ⟨r.data, r.bitIndex + 8⟩⟩,
           blk.set (ti + i) (r.readBits 8).1) := by
      simp [blockByteStep, Stream.isWriting, Stream.serializeBits,
        BitReader.readBits]
    rw [List.foldl_cons, hstep]
    have := ih (⟨StreamMode.read, w, ⟨r.data, r.bitIndex + 8⟩⟩,
      blk.set (ti + i) (r.readBits 8).1) rfl
    simpa using this

/-- Reading a block produces exactly `numBytesMinusOne + 1` bytes, whatever
the buffer contents. -/
theorem serialize_block_read_length (buffer blockIn : List Nat) (maxBytes : Nat) :
    (serialize_block (readStream buffer) blockIn maxBytes).2.length
      = (((readStream buffer).serializeInteger 0 0 ((maxBytes : Int) - 1)).2
          + 1).toNat := by
  unfold serialize_block
  have hiw : (readStream buffer).isWriting = false := rfl
  have hir : (readStream buffer).isReading = true := rfl
  simp only [hiw, hir, Bool.false_eq_true, if_false, if_true]
  have hmode : (((readStream buffer).serializeInteger 0 0
      ((maxBytes : Int) - 1)).1).mode = StreamMode.read := rfl
  obtain ⟨hm1, hd1, hl1⟩ := foldl_blockWordStep_read_shape
    (List.range ((((readStream buffer).serializeInteger 0 0
      ((maxBytes : Int) - 1)).2 + 1).toNat / 4))
    ((((readStream buffer).serializeInteger 0 0 ((maxBytes : Int) - 1)).1),
      List.replicate ((((readStream buffer).serializeInteger 0 0
        ((maxBytes : Int) - 1)).2 + 1).toNat) 0)
    hmode
  obtain ⟨hm2, hd2, hl2⟩ := foldl_blockByteStep_read_shape _ (List.range _) _ hm1
  rw [hl2, hl1]
  simp

/-- C9 counterexample: with `maxBytes = 3` the header is coded in
`bits_required(0,2) = 2` bits, so the all-ones buffer `[0xFF]` decodes
`numBytesMinusOne = 3` and `serialize_block` builds a 4-byte block, which
exceeds `maxBytes`: the bound `size ≤ maxBytes` does not hold for arbitrary
buffer contents. -/
theorem C9_counterexample :
    (serialize_block (readStream [255]) [] 3).2.length = 4 ∧ ¬ ((4 : Nat) ≤ 3) := by
  decide

/-- C9 (amended): every block produced by `serialize_block` in read mode has
size `numBytesMinusOne + 1`, hence at least 1 — a zero-length block cannot be
decoded — and at most `2 ^ bits_required(0, maxBytes - 1)`; the upper bound
`maxBytes` itself holds only when `maxBytes` is a power of two, not for
arbitrary buffer contents. -/
theorem C9_block_size_bounds (buffer blockIn : List Nat) (maxBytes : Nat)
    (hmax2 : 2 ≤ maxBytes) (hmax31 : (maxBytes : Int) ≤ 2 ^ 31) :
    1 ≤ (serialize_block (readStream buffer) blockIn maxBytes).2.length ∧
    (serialize_block (readStream buffer) blockIn maxBytes).2.length
      ≤ 2 ^ bits_required 0 ((maxBytes : Int) - 1) := by
  rw [serialize_block_read_length]
  have hdec : ((readStream buffer).serializeInteger 0 0 ((maxBytes : Int) - 1)).2
      = int32Wrap (int32OfU32 (bitsToNat
          ((List.range (bits_required 0 ((maxBytes : Int) - 1))).map
            fun j => bitAt buffer (0 + j))) + 0) := rfl
  rw [hdec]
  set u := bitsToNat ((List.range (bits_required 0 ((maxBytes : Int) - 1))).map
    fun j => bitAt buffer (0 + j)) with hu
  have hulen : u < 2 ^ bits_required 0 ((maxBytes : Int) - 1) := by
    have := bitsToNat_lt ((List.range (bits_required 0 ((maxBytes : Int) - 1))).map
      fun j => bitAt buffer (0 + j))
    simpa [hu] using this
  have hble : bits_required 0 ((maxBytes : Int) - 1) ≤ 31 := by
    have hgoal : ((maxBytes : Int) - 1 - 0).toNat < 2 ^ 31 := by
      have h31n : (2 : Nat) ^ 31 = 2147483648 := by norm_num
      rw [h31n]
      rw [pow31_int] at hmax31
      omega
    exact bitLengthAux_min 64 _ 31 hgoal
  have hu31 : u < 2 ^ 31 :=
    lt_of_lt_of_le hulen (Nat.pow_le_pow_right (by norm_num) hble)
  have hid : int32Wrap (int32OfU32 u + 0) = (u : Int) := by
    unfold int32OfU32
    rw [if_pos hu31, add_zero]
    apply int32Wrap_id
    · rw [pow31_int]
      omega
    · rw [pow31_int]
      have h31n : (2 : Nat) ^ 31 = 2147483648 := by norm_num
      rw [h31n] at hu31
      omega
  rw [hid]
  generalize 2 ^ bits_required 0 ((maxBytes : Int) - 1) = B at hulen ⊢
  omega

/-- Witness for the amended C9 at `maxBytes = 3` over the all-ones buffer. -/
theorem C9_block_size_bounds_witness :
    (2 ≤ 3 ∧ ((3 : Nat) : Int) ≤ 2 ^ 31) ∧
    (1 ≤ (serialize_block (readStream [255]) [] 3).2.length ∧
     (serialize_block (readStream [255]) [] 3).2.length
        ≤ 2 ^ bits_required 0 (((3 : Nat) : Int) - 1)) :=
  ⟨⟨by norm_num, by norm_num⟩,
   C9_block_size_bounds [255] [] 3 (by norm_num) (by norm_num)⟩

theorem getD_set_nat (l : List Nat) (p v j : Nat) :
    (l.set p v).getD j 0
      = if p = j ∧ p < l.length then v else l.getD j 0 := by
  simp only [List.getD_eq_getElem?_getD, List.getElem?_set]
  by_cases hpj : p = j
  · subst hpj
    by_cases hlt : p < l.length
    · simp [hlt]
    · have hn : l[p]? = none := List.getElem?_eq_none (by omega)
      simp [hlt, hn]
  · simp [hpj]

theorem getD_lt_256 (data : List Nat) (hbytes : ∀ x ∈ data, x < 256) (j : Nat) :
    data.getD j 0 < 256 := by
  by_cases h : j < data.length
  · simp only [List.getD_eq_getElem?_getD, List.getElem?_eq_getElem h]
    exact hbytes _ (List.getElem_mem h)
  · have hn : data[j]? = none := List.getElem?_eq_none (by omega)
    simp [List.getD_eq_getElem?_getD, hn]

/-- In write mode the word loop appends the little-endian word bits and
leaves the block alone. -/
theorem foldl_blockWordStep_write (idxs : List Nat) :
    ∀ (mode : StreamMode) (w : BitWriter) (r : BitReader) (blk : List Nat),
    mode = StreamMode.write →
    idxs.foldl blockWordStep (⟨mode, w, r⟩, blk)
      = (⟨mode, ⟨w.bits ++ idxs.flatMap fun i => natToBits (wordVal blk i) 32⟩,
          r⟩, blk) := by
  induction idxs with
  | nil => intro mode w r blk h; simp [List.flatMap]
  | cons i idxs ih =>
    intro mode w r blk h
    cases h
    have hstep : blockWordStep (⟨StreamMode.write, w, r⟩, blk) i
        = (⟨StreamMode.write, ⟨w.bits ++ natToBits (wordVal blk i) 32⟩, r⟩,
           blk) := by
      simp [blockWordStep, Stream.isWriting, Stream.serializeBits,
        BitWriter.writeBits]
    rw [List.foldl_cons, hstep, ih _ _ _ _ rfl]
    simp [List.flatMap_cons, List.append_assoc]

/-- In write mode the tail loop appends the tail-byte bits and leaves the
block alone. -/
theorem foldl_blockByteStep_write (ti : Nat) (idxs : List Nat) :
    ∀ (mode : StreamMode) (w : BitWriter) (r : BitReader) (blk : List Nat),
    mode = StreamMode.write →
    idxs.foldl (blockByteStep ti) (⟨mode, w, r⟩, blk)
      = (⟨mode,
          ⟨w.bits ++ idxs.flatMap fun i => natToBits (blk.getD (ti + i) 0) 8⟩,
          r⟩, blk) := by
  induction idxs with
  | nil => intro mode w r blk h; simp [List.flatMap]
  | cons i idxs ih =>
    intro mode w r blk h
    cases h
    have hstep : blockByteStep ti (⟨StreamMode.write, w, r⟩, blk) i
        = (⟨StreamMode.write, ⟨w.bits ++ natToBits (blk.getD (ti + i) 0) 8⟩,
            r⟩, blk) := by
      simp [blockByteStep, Stream.isWriting, Stream.serializeBits,
        BitWriter.writeBits]
    rw [List.foldl_cons, hstep, ih _ _ _ _ rfl]
    simp [List.flatMap_cons, List.append_assoc]

/-- Writing a block emits exactly the claimed layout `opsBits (blockOps ...)`
after the existing bits. -/
theorem serialize_block_write_bits (data : List Nat) (maxBytes : Nat)
    (w : BitWriter) (r : BitReader) :
    serialize_block ⟨StreamMode.write, w, r⟩ data maxBytes
      = (⟨StreamMode.write,
          ⟨w.bits ++ opsBits (blockOps data maxBytes)⟩, r⟩, data) := by
  unfold serialize_block
  have hiw : (Stream.mk StreamMode.write w r).isWriting = true := rfl
  have hir : (Stream.mk StreamMode.write w r).isReading = false := rfl
  simp only [hiw, hir, if_true, Bool.false_eq_true, if_false]
  have hhdr : (Stream.mk StreamMode.write w r).serializeInteger
      ((data.length : Int) - 1) 0 ((maxBytes : Int) - 1)
      = (⟨StreamMode.write,
          ⟨w.bits ++ natToBits (u32OfInt ((data.length : Int) - 1 - 0))
            (bits_required 0 ((maxBytes : Int) - 1))⟩, r⟩,
         (data.length : Int) - 1) := by
    simp [Stream.serializeInteger, BitWriter.writeBits]
  rw [hhdr]
  have hnum : (((data.length : Int) - 1) + 1).toNat = data.length := by omega
  rw [hnum]
  rw [foldl_blockWordStep_write _ _ _ _ _ rfl]
  rw [foldl_blockByteStep_write _ _ _ _ _ _ rfl]
  have htail : data.length - data.length / 4 * 4 = data.length % 4 := by omega
  rw [htail]
  simp only [opsBits, blockOps, List.flatMap_cons, List.flatMap_append,
    List.flatMap_map, opBits, Function.comp]
  simp [List.append_assoc]

theorem wordVal_eq (data : List Nat) (k : Nat) :
    wordVal data k = data.getD (k * 4) 0 + data.getD (k * 4 + 1) 0 * 256
      + data.getD (k * 4 + 2) 0 * 65536
      + data.getD (k * 4 + 3) 0 * 16777216 := by
  unfold wordVal
  norm_num

/-- Scattering the word of `data` at index `k` into a block that already
agrees with `data` below `4k` extends agreement to `4(k+1)` and changes
nothing else. -/
theorem setWord_wordVal_getD (data blk : List Nat)
    (hbytes : ∀ x ∈ data, x < 256) (k : Nat)
    (hlen : blk.length = data.length) (hk : 4 * (k + 1) ≤ data.length)
    (hagree : ∀ j, j < 4 * k → blk.getD j 0 = data.getD j 0) :
    (setWord blk k (wordVal data k)).length = data.length ∧
    (∀ j, j < 4 * (k + 1) →
      (setWord blk k (wordVal data k)).getD j 0 = data.getD j 0) ∧
    (∀ j, 4 * (k + 1) ≤ j →
      (setWord blk k (wordVal data k)).getD j 0 = blk.getD j 0) := by
  have h0 := getD_lt_256 data hbytes (k * 4)
  have h1 := getD_lt_256 data hbytes (k * 4 + 1)
  have h2 := getD_lt_256 data hbytes (k * 4 + 2)
  have h3 := getD_lt_256 data hbytes (k * 4 + 3)
  have hval := wordVal_eq data k
  have p8e : (2 : Nat) ^ 8 = 256 := by norm_num
  have p16e : (2 : Nat) ^ 16 = 65536 := by norm_num
  have p24e : (2 : Nat) ^ 24 = 16777216 := by norm_num
  have hL0 : k * 4 < blk.length := by omega
  have hL1 : k * 4 + 1 < blk.length := by omega
  have hL2 : k * 4 + 2 < blk.length := by omega
  have hL3 : k * 4 + 3 < blk.length := by omega
  refine ⟨by simp [setWord, hlen], ?_, ?_⟩
  · intro j hj
    simp only [setWord]
    rw [getD_set_nat, getD_set_nat, getD_set_nat, getD_set_nat]
    simp only [List.length_set, hL0, hL1, hL2, hL3, and_true]
    split_ifs with c3 c2 c1 c0
    · rw [← c3, hval]
      simp only [p8e, p16e, p24e]
      omega
    · rw [← c2, hval]
      simp only [p8e, p16e, p24e]
      omega
    · rw [← c1, hval]
      simp only [p8e, p16e, p24e]
      omega
    · rw [← c0, hval]
      simp only [p8e, p16e, p24e]
      omega
    · exact hagree j (by omega)
  · intro j hj
    simp only [setWord]
    rw [getD_set_nat, getD_set_nat, getD_set_nat, getD_set_nat]
    simp only [List.length_set, hL0, hL1, hL2, hL3, and_true]
    split_ifs with c3 c2 c1 c0
    · omega
    · omega
    · omega
    · omega
    · rfl

theorem wordVal_lt (data : List Nat) (hbytes : ∀ x ∈ data, x < 256) (k : Nat) :
    wordVal data k < 2 ^ 32 := by
  have h0 := getD_lt_256 data hbytes (k * 4)
  have h1 := getD_lt_256 data hbytes (k * 4 + 1)
  have h2 := getD_lt_256 data hbytes (k * 4 + 2)
  have h3 := getD_lt_256 data hbytes (k * 4 + 3)
  rw [wordVal_eq]
  simp only [show (2 : Nat) ^ 32 = 4294967296 from by norm_num]
  omega

/-- Read-mode word loop: over a buffer holding the little-endian words of
`data` at the current position, it advances 32 bits per word and extends the
agreement of the block with `data` from `4k` to `4(k+m)` bytes. -/
theorem foldl_blockWordStep_read (data : List Nat)
    (hbytes : ∀ x ∈ data, x < 256) :
    ∀ (m k : Nat) (w : BitWriter) (B : List Nat) (L front rest : List Bool)
      (blk : List Nat),
      B = bytesOfBits (padBits L) →
      L = front ++
        ((List.range' k m).flatMap fun i => natToBits (wordVal data i) 32)
        ++ rest →
      blk.length = data.length →
      4 * (k + m) ≤ data.length →
      (∀ j, j < 4 * k → blk.getD j 0 = data.getD j 0) →
      ∃ blkOut : List Nat,
        (List.range' k m).foldl blockWordStep
            (⟨StreamMode.read, w, ⟨B, front.length⟩⟩, blk)
          = (⟨StreamMode.read, w, ⟨B, front.length + 32 * m⟩⟩, blkOut) ∧
        blkOut.length = data.length ∧
        (∀ j, j < 4 * (k + m) → blkOut.getD j 0 = data.getD j 0) ∧
        (∀ j, 4 * (k + m) ≤ j → blkOut.getD j 0 = blk.getD j 0) := by
  intro m
  induction m with
  | zero =>
    intro k w B L front rest blk hB hL hlen hk hagree
    refine ⟨blk, ?_, hlen, ?_, ?_⟩
    · simp [List.range']
    · intro j hj
      exact hagree j (by omega)
    · intro j _
      rfl
  | succ m ih =>
    intro k w B L front rest blk hB hL hlen hk hagree
    rw [List.range'_succ] at hL ⊢
    simp only [List.flatMap_cons, ← List.append_assoc] at hL
    -- hL : L = front ++ natToBits (wordVal data k) 32
    --        ++ flatMap (range' (k+1) m) ++ rest  (left-nested)
    have hread : ((⟨B, front.length⟩ : BitReader).readBits 32).1
        = wordVal data k % 2 ^ 32 := by
      apply readBits_value _ front
        ((((List.range' (k + 1) m)).flatMap fun i =>
            natToBits (wordVal data i) 32) ++ rest)
      · rw [hB, hL]
        simp [List.append_assoc]
      · rfl
    have hwv : wordVal data k % 2 ^ 32 = wordVal data k :=
      Nat.mod_eq_of_lt (wordVal_lt data hbytes k)
    have hstep : blockWordStep (⟨StreamMode.read, w, ⟨B, front.length⟩⟩, blk) k
        = (⟨StreamMode.read, w, ⟨B, front.length + 32⟩⟩,
           setWord blk k (wordVal data k)) := by
      have hwv2 : wordVal data k % 4294967296 = wordVal data k := by
        rw [show (4294967296 : Nat) = 2 ^ 32 from by norm_num]
        exact hwv
      simp only [blockWordStep, Stream.isWriting, Stream.serializeBits,
        BitReader.readBits] at hread ⊢
      simp [hread, hwv, hwv2, BitReader.readBits]
    rw [List.foldl_cons, hstep]
    obtain ⟨hlen2, hag2, hout2⟩ := setWord_wordVal_getD data blk hbytes k hlen
      (by omega) hagree
    obtain ⟨blkOut, heq, holen, hoag, hoout⟩ := ih (k + 1) w B L
      (front ++ natToBits (wordVal data k) 32) rest
      (setWord blk k (wordVal data k)) hB
      (by rw [hL]) hlen2 (by omega) hag2
    rw [show (front ++ natToBits (wordVal data k) 32).length
        = front.length + 32 by simp] at heq
    refine ⟨blkOut, ?_, holen, ?_, ?_⟩
    · have harith : front.length + 32 * (m + 1) = front.length + 32 + 32 * m := by
        ring
      rw [harith]
      exact heq
    · intro j hj
      exact hoag j (by omega)
    · intro j hj
      rw [hoout j (by omega)]
      exact hout2 j (by omega)

/-- Read-mode tail loop: over a buffer holding the tail bytes of `data`, it
advances 8 bits per byte and extends the agreement of the block with `data`
from `ti + k` to `ti + k + m` bytes. -/
theorem foldl_blockByteStep_read (data : List Nat)
    (hbytes : ∀ x ∈ data, x < 256) (ti : Nat) :
    ∀ (m k : Nat) (w : BitWriter) (B : List Nat) (L front rest : List Bool)
      (blk : List Nat),
      B = bytesOfBits (padBits L) →
      L = front ++
        ((List.range' k m).flatMap fun i => natToBits (data.getD (ti + i) 0) 8)
        ++ rest →
      blk.length = data.length →
      ti + k + m ≤ data.length →
      (∀ j, j < ti + k → blk.getD j 0 = data.getD j 0) →
      ∃ blkOut : List Nat,
        (List.range' k m).foldl (blockByteStep ti)
            (⟨StreamMode.read, w, ⟨B, front.length⟩⟩, blk)
          = (⟨StreamMode.read, w, ⟨B, front.length + 8 * m⟩⟩, blkOut) ∧
        blkOut.length = data.length ∧
        (∀ j, j < ti + k + m → blkOut.getD j 0 = data.getD j 0) ∧
        (∀ j, ti + k + m ≤ j → blkOut.getD j 0 = blk.getD j 0) := by
  intro m
  induction m with
  | zero =>
    intro k w B L front rest blk hB hL hlen hk hagree
    refine ⟨blk, ?_, hlen, ?_, ?_⟩
    · simp [List.range']
    · intro j hj
      exact hagree j (by omega)
    · intro j _
      rfl
  | succ m ih =>
    intro k w B L front rest blk hB hL hlen hk hagree
    rw [List.range'_succ] at hL ⊢
    simp only [List.flatMap_cons, ← List.append_assoc] at hL
    have hread : ((⟨B, front.length⟩ : BitReader).readBits 8).1
        = data.getD (ti + k) 0 % 2 ^ 8 := by
      apply readBits_value _ front
        ((((List.range' (k + 1) m)).flatMap fun i =>
            natToBits (data.getD (ti + i) 0) 8) ++ rest)
      · rw [hB, hL]
        simp [List.append_assoc]
      · rfl
    have hb256 := getD_lt_256 data hbytes (ti + k)
    have h28 : (2 : Nat) ^ 8 = 256 := by norm_num
    have hbv : data.getD (ti + k) 0 % 2 ^ 8 = data.getD (ti + k) 0 := by
      rw [h28]
      exact Nat.mod_eq_of_lt hb256
    have hstep : blockByteStep ti
        (⟨StreamMode.read, w, ⟨B, front.length⟩⟩, blk) k
        = (⟨StreamMode.read, w, ⟨B, front.length + 8⟩⟩,
           blk.set (ti + k) (data.getD (ti + k) 0)) := by
      have hbv2 : data.getD (ti + k) 0 % 256 = data.getD (ti + k) 0 :=
        Nat.mod_eq_of_lt hb256
      have hbv3 : data[ti + k]?.getD 0 % 256 = data[ti + k]?.getD 0 := by
        simpa [List.getD_eq_getElem?_getD] using hbv2
      simp only [blockByteStep, Stream.isWriting, Stream.serializeBits,
        BitReader.readBits] at hread ⊢
      simp [hread, hbv, hbv2, hbv3, BitReader.readBits]
    rw [List.foldl_cons, hstep]
    have hlen2 : (blk.set (ti + k) (data.getD (ti + k) 0)).length
        = data.length := by simp [hlen]
    have hag2 : ∀ j, j < ti + (k + 1) →
        (blk.set (ti + k) (data.getD (ti + k) 0)).getD j 0 = data.getD j 0 := by
      intro j hj
      rw [getD_set_nat]
      by_cases hjk : ti + k = j
      · simp [hjk, hlen, show j < data.length by omega]
      · simp only [hjk, false_and, if_false]
        exact hagree j (by omega)
    obtain ⟨blkOut, heq, holen, hoag, hoout⟩ := ih (k + 1) w B L
      (front ++ natToBits (data.getD (ti + k) 0) 8) rest
      (blk.set (ti + k) (data.getD (ti + k) 0)) hB
      (by rw [hL]) hlen2 (by omega) hag2
    rw [show (front ++ natToBits (data.getD (ti + k) 0) 8).length
        = front.length + 8 by simp] at heq
    refine ⟨blkOut, ?_, holen, ?_, ?_⟩
    · have harith : front.length + 8 * (m + 1) = front.length + 8 + 8 * m := by
        ring
      rw [harith]
      exact heq
    · intro j hj
      exact hoag j (by omega)
    · intro j hj
      rw [hoout j (by omega)]
      rw [getD_set_nat]
      simp only [show ¬(ti + k = j ∧ ti + k < blk.length) from by omega,
        if_false]

theorem eq_of_getD_nat (a b : List Nat) (hlen : a.length = b.length)
    (h : ∀ j, j < a.length → a.getD j 0 = b.getD j 0) : a = b := by
  apply List.ext_getElem hlen
  intro i h1 h2
  have hi := h i h1
  simp only [List.getD_eq_getElem?_getD, List.getElem?_eq_getElem h1,
    List.getElem?_eq_getElem h2] at hi
  simpa using hi

theorem length_flatMap_natToBits (l : List Nat) (f : Nat → Nat) (c : Nat) :
    (l.flatMap fun i => natToBits (f i) c).length = c * l.length := by
  induction l with
  | nil => simp
  | cons a t ih =>
    simp [List.flatMap_cons, ih]
    ring

/-- The claimed block layout, decomposed into header, word and tail bits. -/
theorem opsBits_blockOps (data : List Nat) (maxBytes : Nat) :
    opsBits (blockOps data maxBytes)
      = opBits (SerOp.serInt ((data.length : Int) - 1) 0 ((maxBytes : Int) - 1))
        ++ (((List.range' 0 (data.length / 4)).flatMap fun i =>
              natToBits (wordVal data i) 32)
          ++ ((List.range' 0 (data.length % 4)).flatMap fun i =>
              natToBits (data.getD (data.length / 4 * 4 + i) 0) 8)) := by
  simp only [opsBits, blockOps, List.flatMap_cons, List.flatMap_append,
    List.flatMap_map, ← List.range_eq_range']
  simp [opBits, Function.comp]

/-- Reading `serialize_block` over a buffer holding the claimed layout of
`data` reconstructs `data` byte-for-byte. -/
theorem serialize_block_read_reconstructs (data : List Nat) (maxBytes : Nat)
    (hlen1 : 1 ≤ data.length) (hlenM : data.length ≤ maxBytes)
    (hmax31 : (maxBytes : Int) ≤ 2 ^ 31)
    (hbytes : ∀ x ∈ data, x < 256) :
    (serialize_block (readStream (bytesOfBits (padBits
        (opsBits (blockOps data maxBytes))))) [] maxBytes).2 = data := by
  set L := opsBits (blockOps data maxBytes) with hLdef
  set B := bytesOfBits (padBits L) with hBdef
  have hshape : L = opBits (SerOp.serInt ((data.length : Int) - 1) 0
        ((maxBytes : Int) - 1))
      ++ (((List.range' 0 (data.length / 4)).flatMap fun i =>
            natToBits (wordVal data i) 32)
        ++ ((List.range' 0 (data.length % 4)).flatMap fun i =>
            natToBits (data.getD (data.length / 4 * 4 + i) 0) 8)) :=
    opsBits_blockOps data maxBytes
  have h4 : ((maxBytes : Int) - 1) < 2 ^ 31 := by omega
  have hu := readBits_value ⟨B, 0⟩ []
    ((((List.range' 0 (data.length / 4)).flatMap fun i =>
        natToBits (wordVal data i) 32)
      ++ ((List.range' 0 (data.length % 4)).flatMap fun i =>
        natToBits (data.getD (data.length / 4 * 4 + i) 0) 8)))
    (u32OfInt ((data.length : Int) - 1 - 0))
    (bits_required 0 ((maxBytes : Int) - 1))
    (by rw [hBdef, hshape]; rfl) rfl
  have hdec := serInt_decode ((data.length : Int) - 1) 0 ((maxBytes : Int) - 1)
    (by omega) (by omega) (by norm_num) h4
  have hhdr : (readStream B).serializeInteger 0 0 ((maxBytes : Int) - 1)
      = (⟨StreamMode.read, ⟨[]⟩,
          ⟨B, 0 + bits_required 0 ((maxBytes : Int) - 1)⟩⟩,
         (data.length : Int) - 1) := by
    simp only [Stream.serializeInteger, readStream, BitReader.readBits] at hu ⊢
    rw [hu, hdec]
  have hhdr1 : ((readStream B).serializeInteger 0 0 ((maxBytes : Int) - 1)).1
      = ⟨StreamMode.read, ⟨[]⟩,
          ⟨B, 0 + bits_required 0 ((maxBytes : Int) - 1)⟩⟩ := by rw [hhdr]
  have hhdr2 : ((readStream B).serializeInteger 0 0 ((maxBytes : Int) - 1)).2
      = (data.length : Int) - 1 := by rw [hhdr]
  unfold serialize_block
  have hiw : (readStream B).isWriting = false := rfl
  have hir : (readStream B).isReading = true := rfl
  simp only [hiw, hir, Bool.false_eq_true, if_false, if_true]
  rw [hhdr1, hhdr2]
  rw [show (((data.length : Int) - 1) + 1).toNat = data.length by omega]
  rw [show (0 + bits_required 0 ((maxBytes : Int) - 1))
      = (opBits (SerOp.serInt ((data.length : Int) - 1) 0
          ((maxBytes : Int) - 1))).length from by simp [opBits]]
  simp only [List.range_eq_range']
  obtain ⟨blk1, heq1, hlen1b, hag1, hrest1⟩ :=
    foldl_blockWordStep_read data hbytes (data.length / 4) 0 ⟨[]⟩ B L
      (opBits (SerOp.serInt ((data.length : Int) - 1) 0 ((maxBytes : Int) - 1)))
      ((List.range' 0 (data.length % 4)).flatMap fun i =>
        natToBits (data.getD (data.length / 4 * 4 + i) 0) 8)
      (List.replicate data.length 0) hBdef
      (by rw [hshape]; simp [List.append_assoc]) (by simp) (by omega)
      (by intro j hj; omega)
  rw [heq1]
  have hfrontlen : ((opBits (SerOp.serInt ((data.length : Int) - 1) 0
        ((maxBytes : Int) - 1)))
      ++ ((List.range' 0 (data.length / 4)).flatMap fun i =>
            natToBits (wordVal data i) 32)).length
      = (opBits (SerOp.serInt ((data.length : Int) - 1) 0
          ((maxBytes : Int) - 1))).length + 32 * (data.length / 4) := by
    rw [List.length_append, length_flatMap_natToBits]
    simp [List.length_range']
  obtain ⟨blk2, heq2, hlen2b, hag2, hrest2⟩ :=
    foldl_blockByteStep_read data hbytes (data.length / 4 * 4)
      (data.length % 4) 0 ⟨[]⟩ B L
      ((opBits (SerOp.serInt ((data.length : Int) - 1) 0 ((maxBytes : Int) - 1)))
        ++ ((List.range' 0 (data.length / 4)).flatMap fun i =>
              natToBits (wordVal data i) 32))
      [] blk1 hBdef
      (by rw [hshape]; simp [List.append_assoc]) hlen1b (by omega)
      (by intro j hj; exact hag1 j (by omega))
  rw [hfrontlen] at heq2
  rw [show data.length - data.length / 4 * 4 = data.length % 4 by omega]
  rw [heq2]
  exact eq_of_getD_nat blk2 data hlen2b
    (fun j hj => hag2 j (by omega))

/-- C6: for a block of size in `[1, maxBytes]`, `serialize_block` in write
mode emits exactly `SerializeInteger(size-1, 0, maxBytes-1)`, then
`floor(size/4)` little-endian 32-bit words written with
`SerializeBits(·, 32)` covering the first `4*floor(size/4)` bytes, then the
`size mod 4` tail bytes written with `SerializeBits(·, 8)` — the layout
`opsBits (blockOps ...)`; and `serialize_block` in read mode consumes that
layout and reconstructs the block byte-for-byte. -/
theorem C6_serialize_block_layout_roundtrip (data : List Nat) (maxBytes : Nat)
    (hlen1 : 1 ≤ data.length) (hlenM : data.length ≤ maxBytes)
    (hmax31 : (maxBytes : Int) ≤ 2 ^ 31)
    (hbytes : ∀ x ∈ data, x < 256) :
    (serialize_block writeStream data maxBytes).1.writer.bits
      = opsBits (blockOps data maxBytes) ∧
    (serialize_block (readStream
        ((serialize_block writeStream data maxBytes).1.flush.writer.getData))
      [] maxBytes).2 = data := by
  have hw := serialize_block_write_bits data maxBytes ⟨[]⟩ ⟨[], 0⟩
  have hws : writeStream = ⟨StreamMode.write, ⟨[]⟩, ⟨[], 0⟩⟩ := rfl
  constructor
  · rw [hws, hw]
    simp
  · rw [hws, hw]
    have hbuf : ((⟨StreamMode.write,
          ⟨[] ++ opsBits (blockOps data maxBytes)⟩, ⟨[], 0⟩⟩ : Stream),
        data).1.flush.writer.getData
        = bytesOfBits (padBits (opsBits (blockOps data maxBytes))) := by
      simp [Stream.flush, BitWriter.flushBits, BitWriter.getData]
    rw [hbuf]
    exact serialize_block_read_reconstructs data maxBytes hlen1 hlenM
      hmax31 hbytes

/-- Witness for C6 on the 5-byte block `[10, 20, 30, 40, 50]` with
`maxBytes = 8` (one packed word plus one tail byte). -/
theorem C6_serialize_block_layout_roundtrip_witness :
    (1 ≤ ([10, 20, 30, 40, 50] : List Nat).length ∧
     ([10, 20, 30, 40, 50] : List Nat).length ≤ 8 ∧
     ((8 : Nat) : Int) ≤ 2 ^ 31 ∧
     (∀ x ∈ ([10, 20, 30, 40, 50] : List Nat), x < 256)) ∧
    ((serialize_block writeStream [10, 20, 30, 40, 50] 8).1.writer.bits
      = opsBits (blockOps [10, 20, 30, 40, 50] 8) ∧
    (serialize_block (readStream
        ((serialize_block writeStream [10, 20, 30, 40, 50] 8).1.flush.writer.getData))
      [] 8).2 = [10, 20, 30, 40, 50]) :=
  ⟨⟨by decide, by decide, by decide, by decide⟩,
   C6_serialize_block_layout_roundtrip [10, 20, 30, 40, 50] 8 (by decide)
     (by decide) (by decide) (by decide)⟩

/-! ### DNSResolver, translated from `src/src/DNSResolver.cpp`.

The class keeps `map` (all requested names) and `in_progress` (names whose
async lookup has not completed).  `Resolve(name)` returns immediately when
the name is already in `map` — whatever the entry's status — and otherwise
creates a fresh `RESOLVE_IN_PROGRESS` entry, starts one async lookup
(counted here by `lookupsStarted`), and files the entry in both maps.  The
async future itself is outside the model; only the entry bookkeeping of
`Resolve` matters to the claims. -/

inductive ResolveStatus
  | inProgress
  | succeeded
  | failed
deriving DecidableEq

structure ResolveEntry where
  status : ResolveStatus
deriving DecidableEq

structure DNSResolver where
  map : List (String × ResolveEntry)
  in_progress : List (String × ResolveEntry)
  lookupsStarted : Nat
deriving DecidableEq

/-- `DNSResolver::Resolve` (DNSResolver.cpp:69-87). -/
def DNSResolver.resolve (r : DNSResolver) (name : String) : DNSResolver :=
  if (r.map.lookup name).isSome then r
  else
    let entry : ResolveEntry := ⟨ResolveStatus.inProgress⟩
    { map := (name, entry) :: r.map,
      in_progress := (name, entry) :: r.in_progress,
      lookupsStarted := r.lookupsStarted + 1 }

/-- C10: `Resolve` is idempotent per name.  If `name` is already in the map
— whatever the status of its entry — a second `Resolve(name)` leaves the
resolver state unchanged and starts no new lookup; and for any state,
calling `Resolve(name)` twice equals calling it once (only the first call
for a name creates an entry). -/
theorem C10_resolve_idempotent (r : DNSResolver) (name : String)
    (h : (r.map.lookup name).isSome) :
    r.resolve name = r ∧
    ∀ (s : DNSResolver) (n : String), (s.resolve n).resolve n = s.resolve n := by
  constructor
  · unfold DNSResolver.resolve
    rw [if_pos h]
  · intro s n
    by_cases hs : (s.map.lookup n).isSome
    · unfold DNSResolver.resolve
      rw [if_pos hs, if_pos hs]
    · show (s.resolve n).resolve n = s.resolve n
      have h1 : s.resolve n
          = { map := (n, ⟨ResolveStatus.inProgress⟩) :: s.map,
              in_progress := (n, ⟨ResolveStatus.inProgress⟩) :: s.in_progress,
              lookupsStarted := s.lookupsStarted + 1 } := by
        unfold DNSResolver.resolve
        rw [if_neg (by simpa using hs)]
      rw [h1]
      unfold DNSResolver.resolve
      rw [if_pos (by simp [List.lookup])]

/-- A resolver state that already holds a completed entry. -/
def resolverWithEntry : DNSResolver :=
  ⟨[("server.example:4000", ⟨ResolveStatus.succeeded⟩)], [], 3⟩

/-- Witness for C10: a resolver that already holds an entry for
`"server.example:4000"`. -/
theorem C10_resolve_idempotent_witness :
    (resolverWithEntry.map.lookup "server.example:4000").isSome = true ∧
    (resolverWithEntry.resolve "server.example:4000" = resolverWithEntry ∧
    ∀ (s : DNSResolver) (n : String), (s.resolve n).resolve n = s.resolve n) :=
  ⟨by decide,
   C10_resolve_idempotent resolverWithEntry "server.example:4000" (by decide)⟩

/-! ### Reliable message channel — receive path

Modelled from the spec: `ReliableMessageChannel.h/.cpp` and `Connection` are
absent from the tree (only `src/tests/TestReliableMessageChannel.cpp` uses
them).  Spec §4.5: the receiver decodes `(id, message)` pairs from each
packet; an id below `next_expected_id` is dropped silently, an id at least
`receive_queue_capacity` ahead is dropped with the `MessagesEarly` counter,
anything else is stored in the ring at `id mod capacity`;
`ReceiveMessage()` returns the message at `next_expected_id` if present and
advances.  The sender (spec §4.5 send path) only ever transmits genuine
`(id, payload)` pairs of the enqueued messages, which appears below as the
genuineness hypothesis on packets. -/

structure MsgRecvState (α : Type) where
  nextExpected : Nat
  slots : List (Option (Nat × α))
  earlyCount : Nat

/-- Store one decoded `(id, message)` pair (spec §4.5 receive path). -/
def msgReceive (cap : Nat) (s : MsgRecvState α) (m : Nat × α) :
    MsgRecvState α :=
  if m.1 < s.nextExpected then s
  else if cap ≤ m.1 - s.nextExpected then
    { s with earlyCount := s.earlyCount + 1 }
  else
    { s with slots := s.slots.set (m.1 % cap) (some m) }

/-- `ReceiveMessage()` (spec §4.5): the message at `next_expected_id`, if
present. -/
def msgReceiveMessage (cap : Nat) (s : MsgRecvState α) :
    Option α × MsgRecvState α :=
  match s.slots.getD (s.nextExpected % cap) none with
  | none => (none, s)
  | some (id, p) =>
      if id = s.nextExpected then
        (some p, { s with nextExpected := s.nextExpected + 1,
                          slots := s.slots.set (s.nextExpected % cap) none })
      else (none, s)

/-- Drain the receive queue by calling `ReceiveMessage()` until it returns
none (the consumer loop of the tests), with fuel. -/
def msgDrain (cap : Nat) : Nat → MsgRecvState α → List α →
    MsgRecvState α × List α
  | 0, s, out => (s, out)
  | fuel + 1, s, out =>
      match msgReceiveMessage cap s with
      | (none, _) => (s, out)
      | (some p, s1) => msgDrain cap fuel s1 (out ++ [p])

/-- Process one inbound packet (a list of decoded `(id, message)` pairs)
then drain. -/
def msgProcessPacket (cap fuel : Nat) (s : MsgRecvState α) (out : List α)
    (pkt : List (Nat × α)) : MsgRecvState α × List α :=
  msgDrain cap fuel (pkt.foldl (msgReceive cap) s) out

/-- Process a whole trace of delivered packets. -/
def msgRun (cap fuel : Nat) : MsgRecvState α → List α →
    List (List (Nat × α)) → MsgRecvState α × List α
  | s, out, [] => (s, out)
  | s, out, pkt :: pkts =>
      let p := msgProcessPacket cap fuel s out pkt
      msgRun cap fuel p.1 p.2 pkts

/-- Fresh channel receiver: empty ring, `next_expected_id = 0`. -/
def msgInit (cap : Nat) : MsgRecvState α :=
  ⟨0, List.replicate cap none, 0⟩

/-- The channel invariant: the delivered output is exactly the ids below
`next_expected_id` in order with the original payloads, nothing early has
been counted, and every slot holds a genuine in-window message. -/
def MsgInv (N cap : Nat) (sent : Nat → α) (s : MsgRecvState α)
    (out : List α) : Prop :=
  out = (List.range s.nextExpected).map sent ∧
  s.nextExpected ≤ N ∧
  s.slots.length = cap ∧
  s.earlyCount = 0 ∧
  ∀ j id p, s.slots.getD j none = some (id, p) →
    id < N ∧ s.nextExpected ≤ id ∧ id % cap = j ∧ p = sent id

/-- Message `id` is stored in its ring slot with its genuine payload. -/
def Stored (cap : Nat) (sent : Nat → α) (s : MsgRecvState α) (id : Nat) :
    Prop :=
  s.slots.getD (id % cap) none = some (id, sent id)

/-- Message `id` has been delivered or is stored awaiting delivery. -/
def Reached (cap : Nat) (sent : Nat → α) (s : MsgRecvState α) (id : Nat) :
    Prop :=
  id < s.nextExpected ∨ Stored cap sent s id

/-- The receive queue has nothing deliverable. -/
def Quiescent (cap : Nat) (s : MsgRecvState α) : Prop :=
  (msgReceiveMessage cap s).1 = none

theorem getD_set_poly {β : Type} (l : List β) (p : Nat) (v : β) (j : Nat)
    (d : β) :
    (l.set p v).getD j d = if p = j ∧ p < l.length then v else l.getD j d := by
  simp only [List.getD_eq_getElem?_getD, List.getElem?_set]
  by_cases hpj : p = j
  · subst hpj
    by_cases hlt : p < l.length
    · simp [hlt]
    · have hn : l[p]? = none := List.getElem?_eq_none (by omega)
      simp [hlt, hn]
  · simp [hpj]

/-- Receiving a genuine in-window message preserves the invariant, reaches
the received id, and loses nothing already reached.  Under `N ≤ cap` the
early branch is unreachable. -/
theorem msgReceive_inv {α : Type} (N cap : Nat) (sent : Nat → α)
    (hcap : N ≤ cap) (s : MsgRecvState α) (out : List α) (m : Nat × α)
    (hinv : MsgInv N cap sent s out) (hm1 : m.1 < N) (hm2 : m.2 = sent m.1) :
    MsgInv N cap sent (msgReceive cap s m) out ∧
    Reached cap sent (msgReceive cap s m) m.1 ∧
    (∀ id, Reached cap sent s id → Reached cap sent (msgReceive cap s m) id) := by
  obtain ⟨hout, hnext, hlen, hearly, hslots⟩ := hinv
  unfold msgReceive
  by_cases h1 : m.1 < s.nextExpected
  · rw [if_pos h1]
    exact ⟨⟨hout, hnext, hlen, hearly, hslots⟩, Or.inl h1, fun id h => h⟩
  · rw [if_neg h1]
    have hno_early : ¬ (cap ≤ m.1 - s.nextExpected) := by omega
    rw [if_neg hno_early]
    have hm1cap : m.1 % cap = m.1 := Nat.mod_eq_of_lt (by omega)
    have hstored : Stored cap sent
        { s with slots := s.slots.set (m.1 % cap) (some m) } m.1 := by
      unfold Stored
      show (s.slots.set (m.1 % cap) (some m)).getD (m.1 % cap) none
        = some (m.1, sent m.1)
      rw [getD_set_poly, if_pos ⟨rfl, by omega⟩, ← hm2]
    refine ⟨⟨hout, hnext, by simp [hlen], hearly, ?_⟩, Or.inr hstored, ?_⟩
    · intro j id p hj
      show id < N ∧ s.nextExpected ≤ id ∧ id % cap = j ∧ p = sent id
      have hj2 : (s.slots.set (m.1 % cap) (some m)).getD j none
          = some (id, p) := hj
      rw [getD_set_poly] at hj2
      by_cases hcase : m.1 % cap = j ∧ m.1 % cap < s.slots.length
      · obtain ⟨hc1, hc2⟩ := hcase
        rw [if_pos ⟨hc1, hc2⟩] at hj2
        have hm := Option.some.inj hj2
        have hid : m.1 = id := by rw [hm]
        have hp : m.2 = p := by rw [hm]
        refine ⟨by omega, by omega, by rw [← hid]; exact hc1, ?_⟩
        rw [← hp, ← hid, hm2]
      · rw [if_neg hcase] at hj2
        exact hslots j id p hj2
    · intro id hid
      rcases hid with h | h
      · exact Or.inl h
      · right
        unfold Stored at h ⊢
        obtain ⟨hidN, hidnext, -, -⟩ := hslots _ _ _ h
        have hidcap2 : id % cap = id := Nat.mod_eq_of_lt (by omega)
        show (s.slots.set (m.1 % cap) (some m)).getD (id % cap) none
          = some (id, sent id)
        rw [getD_set_poly]
        by_cases he : m.1 % cap = id % cap ∧ m.1 % cap < s.slots.length
        · have hideq : m.1 = id := by omega
          rw [if_pos he]
          have hm2b : m = (id, sent id) := by
            have h2 : m.2 = sent id := by rw [hm2, hideq]
            calc m = (m.1, m.2) := rfl
            _ = (id, sent id) := by rw [hideq, h2]
          rw [hm2b]
        · rw [if_neg he]
          exact h

/-- `ReceiveMessage` delivers exactly the head of the in-order stream when
present, preserving the invariant and everything reached. -/
theorem msgReceiveMessage_inv {α : Type} (N cap : Nat) (sent : Nat → α)
    (hcap : N ≤ cap) (s : MsgRecvState α) (out : List α)
    (hinv : MsgInv N cap sent s out) :
    ∀ p s1, msgReceiveMessage cap s = (some p, s1) →
      MsgInv N cap sent s1 (out ++ [p]) ∧
      s1.nextExpected = s.nextExpected + 1 ∧
      (∀ id, Reached cap sent s id → Reached cap sent s1 id) := by
  obtain ⟨hout, hnext, hlen, hearly, hslots⟩ := hinv
  intro p s1 hrm
  unfold msgReceiveMessage at hrm
  split at hrm
  · exact absurd (congrArg Prod.fst hrm) (by simp)
  · rename_i id p0 hslot
    split at hrm
    · rename_i hid
      injection hrm with h1 h2
      injection h1 with h1
      subst h1
      subst h2
      obtain ⟨hidN, -, hidcap, hp0⟩ := hslots _ _ _ hslot
      have hnextN : s.nextExpected < N := by omega
      have hcap0 : 0 < cap := by omega
      refine ⟨⟨?_, by show s.nextExpected + 1 ≤ N; omega, by simp [hlen],
        hearly, ?_⟩, rfl, ?_⟩
      · rw [hout, List.range_succ, List.map_append]
        simp [hp0, hid]
      · intro j id2 p2 hj
        show id2 < N ∧ s.nextExpected + 1 ≤ id2 ∧ id2 % cap = j ∧ p2 = sent id2
        have hj2 : (s.slots.set (s.nextExpected % cap) none).getD j none
            = some (id2, p2) := hj
        rw [getD_set_poly] at hj2
        by_cases hcase : s.nextExpected % cap = j ∧
            s.nextExpected % cap < s.slots.length
        · rw [if_pos hcase] at hj2
          exact absurd hj2 (by simp)
        · rw [if_neg hcase] at hj2
          obtain ⟨g1, g2, g3, g4⟩ := hslots _ _ _ hj2
          refine ⟨g1, ?_, g3, g4⟩
          by_cases hq : id2 = s.nextExpected
          · exfalso
            apply hcase
            refine ⟨by rw [← g3, hq], by rw [hlen]; exact Nat.mod_lt _ hcap0⟩
          · omega
      · intro id0 h0
        rcases h0 with h0 | h0
        · exact Or.inl (by show id0 < s.nextExpected + 1; omega)
        · by_cases he : id0 = s.nextExpected
          · exact Or.inl (by show id0 < s.nextExpected + 1; omega)
          · right
            unfold Stored at h0 ⊢
            obtain ⟨g1, g2, -, -⟩ := hslots _ _ _ h0
            show (s.slots.set (s.nextExpected % cap) none).getD (id0 % cap)
                none = some (id0, sent id0)
            rw [getD_set_poly, if_neg ?hne]
            · exact h0
            case hne =>
              intro hcon
              apply he
              have hq1 : id0 % cap = id0 := Nat.mod_eq_of_lt (by omega)
              have hq2 : s.nextExpected % cap = s.nextExpected :=
                Nat.mod_eq_of_lt (by omega)
              omega
    · exact absurd (congrArg Prod.fst hrm) (by simp)

/-- Draining with enough fuel preserves the invariant, loses nothing
reached, and ends with nothing deliverable. -/
theorem msgDrain_inv {α : Type} (N cap : Nat) (sent : Nat → α)
    (hcap : N ≤ cap) :
    ∀ (fuel : Nat) (s : MsgRecvState α) (out : List α),
    MsgInv N cap sent s out → N + 1 ≤ fuel + s.nextExpected →
    MsgInv N cap sent (msgDrain cap fuel s out).1 (msgDrain cap fuel s out).2 ∧
    (∀ id, Reached cap sent s id →
      Reached cap sent (msgDrain cap fuel s out).1 id) ∧
    Quiescent cap (msgDrain cap fuel s out).1 := by
  intro fuel
  induction fuel with
  | zero =>
    intro s out hinv hfuel
    obtain ⟨-, hnext, -⟩ := hinv
    omega
  | succ fuel ih =>
    intro s out hinv hfuel
    rcases hrm : msgReceiveMessage cap s with ⟨o, s1⟩
    cases o with
    | none =>
      have hd : msgDrain cap (fuel + 1) s out = (s, out) := by
        unfold msgDrain
        rw [hrm]
      rw [hd]
      refine ⟨hinv, fun id h => h, ?_⟩
      unfold Quiescent
      rw [hrm]
    | some p =>
      obtain ⟨hinv1, hnext1, hreach1⟩ :=
        msgReceiveMessage_inv N cap sent hcap s out hinv p s1 hrm
      have hd : msgDrain cap (fuel + 1) s out
          = msgDrain cap fuel s1 (out ++ [p]) := by
        conv_lhs => unfold msgDrain
        rw [hrm]
      rw [hd]
      obtain ⟨ha, hb, hc⟩ := ih s1 (out ++ [p]) hinv1 (by omega)
      exact ⟨ha, fun id h => hb id (hreach1 id h), hc⟩

/-- Folding a packet of genuine messages into the receive ring preserves
the invariant and reaches every id carried by the packet. -/
theorem foldl_msgReceive_inv {α : Type} (N cap : Nat) (sent : Nat → α)
    (hcap : N ≤ cap) :
    ∀ (pkt : List (Nat × α)) (s : MsgRecvState α) (out : List α),
    MsgInv N cap sent s out →
    (∀ m ∈ pkt, m.1 < N ∧ m.2 = sent m.1) →
    MsgInv N cap sent (pkt.foldl (msgReceive cap) s) out ∧
    (∀ id, Reached cap sent s id →
      Reached cap sent (pkt.foldl (msgReceive cap) s) id) ∧
    (∀ m ∈ pkt, Reached cap sent (pkt.foldl (msgReceive cap) s) m.1) := by
  intro pkt
  induction pkt with
  | nil =>
    intro s out hinv _
    exact ⟨hinv, fun id h => h, by simp⟩
  | cons m pkt ih =>
    intro s out hinv hgen
    obtain ⟨hinv1, hreach1, hnew1⟩ := msgReceive_inv N cap sent hcap s out m
      hinv (hgen m (List.mem_cons_self m pkt)).1
      (hgen m (List.mem_cons_self m pkt)).2
    rw [List.foldl_cons]
    obtain ⟨ha, hb, hc⟩ := ih (msgReceive cap s m) out hinv1
      (fun x hx => hgen x (List.mem_cons_of_mem _ hx))
    refine ⟨ha, fun id h => hb id (hnew1 id h), ?_⟩
    intro x hx
    rcases List.mem_cons.mp hx with rfl | hx2
    · exact hb x.1 hreach1
    · exact hc x hx2

/-- Running a packet trace preserves the invariant and quiescence, and
reaches every id delivered by the trace. -/
theorem msgRun_inv {α : Type} (N cap fuel : Nat) (sent : Nat → α)
    (hcap : N ≤ cap) (hfuel : N + 1 ≤ fuel) :
    ∀ (pkts : List (List (Nat × α))) (s : MsgRecvState α) (out : List α),
    MsgInv N cap sent s out → Quiescent cap s →
    (∀ pkt ∈ pkts, ∀ m ∈ pkt, m.1 < N ∧ m.2 = sent m.1) →
    MsgInv N cap sent (msgRun cap fuel s out pkts).1
      (msgRun cap fuel s out pkts).2 ∧
    Quiescent cap (msgRun cap fuel s out pkts).1 ∧
    (∀ id, Reached cap sent s id →
      Reached cap sent (msgRun cap fuel s out pkts).1 id) ∧
    (∀ pkt ∈ pkts, ∀ m ∈ pkt,
      Reached cap sent (msgRun cap fuel s out pkts).1 m.1) := by
  intro pkts
  induction pkts with
  | nil =>
    intro s out hinv hq _
    exact ⟨hinv, hq, fun id h => h, by simp⟩
  | cons pkt pkts ih =>
    intro s out hinv hq hgen
    obtain ⟨hf1, hf2, hf3⟩ := foldl_msgReceive_inv N cap sent hcap pkt s out
      hinv (hgen pkt (List.mem_cons_self pkt pkts))
    obtain ⟨hd1, hd2, hd3⟩ := msgDrain_inv N cap sent hcap fuel
      (pkt.foldl (msgReceive cap) s) out hf1 (by
        obtain ⟨-, hn, -⟩ := hf1
        omega)
    have hrun : msgRun cap fuel s out (pkt :: pkts)
        = msgRun cap fuel (msgProcessPacket cap fuel s out pkt).1
            (msgProcessPacket cap fuel s out pkt).2 pkts := rfl
    rw [hrun]
    obtain ⟨ga, gb, gc, gd⟩ := ih (msgProcessPacket cap fuel s out pkt).1
      (msgProcessPacket cap fuel s out pkt).2 hd1 hd3
      (fun q hq2 => hgen q (List.mem_cons_of_mem _ hq2))
    refine ⟨ga, gb, ?_, ?_⟩
    · intro id h
      exact gc id (hd2 id (hf2 id h))
    · intro q hq2 m hm
      rcases List.mem_cons.mp hq2 with rfl | hq3
      · exact gc m.1 (hd2 m.1 (hf3 m hm))
      · exact gd q hq3 m hm

theorem getD_replicate_none {β : Type} (cap j : Nat) :
    (List.replicate cap (none : Option β)).getD j none = none := by
  simp only [List.getD_eq_getElem?_getD, List.getElem?_replicate]
  by_cases h : j < cap <;> simp [h]

theorem msgInit_inv {α : Type} (N cap : Nat) (sent : Nat → α) :
    MsgInv N cap sent (msgInit cap (α := α)) [] := by
  refine ⟨by simp [msgInit], by simp [msgInit], by simp [msgInit], rfl, ?_⟩
  intro j id p hj
  have hnone : (msgInit cap (α := α)).slots.getD j none = none :=
    getD_replicate_none cap j
  rw [hnone] at hj
  exact absurd hj (by simp)

theorem msgInit_quiescent {α : Type} (cap : Nat) :
    Quiescent cap (msgInit cap (α := α)) := by
  unfold Quiescent msgReceiveMessage
  have hnone : (msgInit cap (α := α)).slots.getD
      ((msgInit cap (α := α)).nextExpected % cap) none = none :=
    getD_replicate_none cap _
  rw [hnone]

/-- Complete delivery: under eventual delivery (every id appears in the
trace) and a receive queue that covers the send window, the channel delivers
exactly ids `0..N-1` in order with the original payloads. -/
theorem msgRun_complete {α : Type} (N cap fuel : Nat) (sent : Nat → α)
    (pkts : List (List (Nat × α))) (hcap : N ≤ cap) (hfuel : N + 1 ≤ fuel)
    (hgen : ∀ pkt ∈ pkts, ∀ m ∈ pkt, m.1 < N ∧ m.2 = sent m.1)
    (hcov : ∀ i, i < N → ∃ pkt ∈ pkts, ∃ m ∈ pkt, m.1 = i) :
    (msgRun cap fuel (msgInit cap) [] pkts).2 = (List.range N).map sent ∧
    (msgRun cap fuel (msgInit cap) [] pkts).1.nextExpected = N ∧
    (msgRun cap fuel (msgInit cap) [] pkts).1.earlyCount = 0 := by
  obtain ⟨hinv, hq, -, hreach⟩ := msgRun_inv N cap fuel sent hcap hfuel pkts
    (msgInit cap) [] (msgInit_inv N cap sent) (msgInit_quiescent cap) hgen
  obtain ⟨hout, hnext, hlen, hearly, hslots⟩ := hinv
  have hN : (msgRun cap fuel (msgInit cap) [] pkts).1.nextExpected = N := by
    by_contra hne
    have hlt : (msgRun cap fuel (msgInit cap) [] pkts).1.nextExpected < N := by
      omega
    obtain ⟨pkt, hpkt, m, hm, hmi⟩ :=
      hcov (msgRun cap fuel (msgInit cap) [] pkts).1.nextExpected hlt
    have hr := hreach pkt hpkt m hm
    rw [hmi] at hr
    rcases hr with h | h
    · omega
    · unfold Stored at h
      unfold Quiescent msgReceiveMessage at hq
      rw [h] at hq
      simp at hq
  exact ⟨by rw [hout, hN], hN, hearly⟩

/-- C1: for every sequence of `N` messages on the reliable message channel
and every pattern of packet loss, reordering and duplication with eventual
delivery (every id eventually arrives while in-window: here `N ≤ cap` so the
window always covers the send queue, matching the test configuration where
`SendMessage` never fails with `SendQueueFull`), the sequence returned by
`ReceiveMessage()` is exactly ids `0, 1, ..., N-1` with the original
payloads — no gaps, duplicates, or reorderings. -/
theorem C1_reliable_in_order_delivery {α : Type} (N cap fuel : Nat)
    (sent : Nat → α) (pkts : List (List (Nat × α)))
    (hcap : N ≤ cap) (hfuel : N + 1 ≤ fuel)
    (hgen : ∀ pkt ∈ pkts, ∀ m ∈ pkt, m.1 < N ∧ m.2 = sent m.1)
    (hcov : ∀ i, i < N → ∃ pkt ∈ pkts, ∃ m ∈ pkt, m.1 = i) :
    (msgRun cap fuel (msgInit cap) [] pkts).2 = (List.range N).map sent :=
  (msgRun_complete N cap fuel sent pkts hcap hfuel hgen hcov).1

/-- Witness for C1: three messages delivered over a trace with reordering
(2 before 0), duplication (1 twice) and a lost/empty packet. -/
theorem C1_reliable_in_order_delivery_witness :
    ((3 : Nat) ≤ 4 ∧ (3 : Nat) + 1 ≤ 5 ∧
     (∀ pkt ∈ [[((1 : Nat), (101 : Nat))], [(2, 102), (1, 101)], [],
         [(0, 100), (2, 102)]], ∀ m ∈ pkt,
       m.1 < 3 ∧ m.2 = (fun i => 100 + i : Nat → Nat) m.1) ∧
     (∀ i, i < 3 → ∃ pkt ∈ [[((1 : Nat), (101 : Nat))], [(2, 102), (1, 101)],
         [], [(0, 100), (2, 102)]], ∃ m ∈ pkt, m.1 = i)) ∧
    (msgRun 4 5 (msgInit 4) []
        [[((1 : Nat), (101 : Nat))], [(2, 102), (1, 101)], [],
         [(0, 100), (2, 102)]]).2
      = (List.range 3).map (fun i => 100 + i : Nat → Nat) :=
  ⟨⟨by decide, by decide, by decide, by decide⟩,
   C1_reliable_in_order_delivery 3 4 5 (fun i => 100 + i)
     [[(1, 101)], [(2, 102), (1, 101)], [], [(0, 100), (2, 102)]]
     (by decide) (by decide) (by decide) (by decide)⟩

/-! ### Connection counters

Modelled from the spec: `Connection` is absent from the tree.  Spec §4.4:
`WritePacket` assigns `sequence = next_send_sequence++` and inserts
`{sequence, acked=false}` into the sent ring; `ReadPacket` marks each newly
acked sequence (derived from `ack` / `ack_bits`) acked exactly once,
incrementing `PacketsAcked`. -/

structure ConnState where
  packetsWritten : Nat
  ackedFlags : List Bool
  packetsAcked : Nat

def connInit : ConnState := ⟨0, [], 0⟩

/-- `WritePacket` (spec §4.4): assign the next sequence, insert an un-acked
entry, bump `PacketsWritten`. -/
def connWritePacket (s : ConnState) : ConnState :=
  ⟨s.packetsWritten + 1, s.ackedFlags ++ [false], s.packetsAcked⟩

/-- Mark one sequence acked: only a tracked, not-yet-acked sequence
increments `PacketsAcked` (spec §4.4: "if present and not already acked"). -/
def markAcked (s : ConnState) (seq : Nat) : ConnState :=
  if seq < s.ackedFlags.length ∧ s.ackedFlags.getD seq true = false then
    ⟨s.packetsWritten, s.ackedFlags.set seq true, s.packetsAcked + 1⟩
  else s

/-- `ReadPacket` ack inference (spec §4.4): ack `ack` itself and, for each
set bit `k` of `ack_bits`, the sequence `ack - 1 - k`. -/
def connReadPacket (s : ConnState) (ack : Nat) (ackBits : Nat) : ConnState :=
  (List.range 32).foldl (fun st k =>
    if ackBits / 2 ^ k % 2 = 1 ∧ k + 1 ≤ ack then markAcked st (ack - 1 - k)
    else st) (markAcked s ack)

inductive ConnEvent
  | write
  | read (ack : Nat) (ackBits : Nat)
deriving DecidableEq

def connStep (s : ConnState) : ConnEvent → ConnState
  | .write => connWritePacket s
  | .read ack bits => connReadPacket s ack bits

def connRun (s : ConnState) (evs : List ConnEvent) : ConnState :=
  evs.foldl connStep s

def countWrites (evs : List ConnEvent) : Nat :=
  evs.countP (fun e => match e with | .write => true | _ => false)

/-- The connection counter invariant: `PacketsAcked` counts the acked
entries of the sent ring, whose size is `PacketsWritten`. -/
def ConnInv (s : ConnState) : Prop :=
  s.packetsAcked = s.ackedFlags.count true ∧
  s.ackedFlags.length = s.packetsWritten

theorem count_true_set (l : List Bool) :
    ∀ i : Nat, i < l.length → l.getD i true = false →
    (l.set i true).count true = l.count true + 1 := by
  induction l with
  | nil => intro i hi _; simp at hi
  | cons b t ih =>
    intro i hi hf
    cases i with
    | zero =>
      have hb : b = false := by simpa using hf
      subst hb
      simp [List.count_cons]
    | succ i =>
      have := ih i (by simpa using hi) (by simpa using hf)
      simp only [List.set_cons_succ, List.count_cons, this]
      omega

theorem markAcked_inv (s : ConnState) (seq : Nat) (h : ConnInv s) :
    ConnInv (markAcked s seq) ∧
    (markAcked s seq).packetsWritten = s.packetsWritten := by
  obtain ⟨h1, h2⟩ := h
  unfold markAcked
  by_cases hc : seq < s.ackedFlags.length ∧ s.ackedFlags.getD seq true = false
  · rw [if_pos hc]
    refine ⟨⟨?_, by simp [h2]⟩, rfl⟩
    rw [count_true_set s.ackedFlags seq hc.1 hc.2, h1]
  · rw [if_neg hc]
    exact ⟨⟨h1, h2⟩, rfl⟩

theorem connReadPacket_inv (s : ConnState) (ack bits : Nat) (h : ConnInv s) :
    ConnInv (connReadPacket s ack bits) ∧
    (connReadPacket s ack bits).packetsWritten = s.packetsWritten := by
  unfold connReadPacket
  have hstart := markAcked_inv s ack h
  generalize hm : markAcked s ack = s0 at hstart
  obtain ⟨hinv0, hw0⟩ := hstart
  have : ∀ (ks : List Nat) (st : ConnState), ConnInv st →
      ConnInv (ks.foldl (fun st k =>
        if bits / 2 ^ k % 2 = 1 ∧ k + 1 ≤ ack then markAcked st (ack - 1 - k)
        else st) st) ∧
      (ks.foldl (fun st k =>
        if bits / 2 ^ k % 2 = 1 ∧ k + 1 ≤ ack then markAcked st (ack - 1 - k)
        else st) st).packetsWritten = st.packetsWritten := by
    intro ks
    induction ks with
    | nil => intro st hst; exact ⟨hst, rfl⟩
    | cons k ks ih =>
      intro st hst
      rw [List.foldl_cons]
      by_cases hc : bits / 2 ^ k % 2 = 1 ∧ k + 1 ≤ ack
      · rw [if_pos hc]
        obtain ⟨ha, hb⟩ := markAcked_inv st (ack - 1 - k) hst
        obtain ⟨hx, hy⟩ := ih _ ha
        exact ⟨hx, by rw [hy, hb]⟩
      · rw [if_neg hc]
        exact ih st hst
  obtain ⟨ha, hb⟩ := this (List.range 32) s0 hinv0
  exact ⟨ha, by rw [hb, hw0]⟩

theorem connRun_inv (evs : List ConnEvent) :
    ∀ s : ConnState, ConnInv s →
    ConnInv (connRun s evs) ∧
    (connRun s evs).packetsWritten = s.packetsWritten + countWrites evs := by
  induction evs with
  | nil =>
    intro s h
    exact ⟨h, by simp [connRun, countWrites]⟩
  | cons e evs ih =>
    intro s h
    have hstep : ConnInv (connStep s e) ∧
        (connStep s e).packetsWritten
          = s.packetsWritten + (countWrites [e]) := by
      cases e with
      | write =>
        obtain ⟨h1, h2⟩ := h
        exact ⟨⟨by simp [connStep, connWritePacket, h1], by
          simp [connStep, connWritePacket, h2]⟩, by
          simp [connStep, connWritePacket, countWrites]⟩
      | read ack bits =>
        obtain ⟨ha, hb⟩ := connReadPacket_inv s ack bits h
        refine ⟨ha, ?_⟩
        show (connReadPacket s ack bits).packetsWritten
          = s.packetsWritten + countWrites [ConnEvent.read ack bits]
        rw [hb, show countWrites [ConnEvent.read ack bits] = 0 from rfl]
        omega
    obtain ⟨hs1, hs2⟩ := hstep
    obtain ⟨ha, hb⟩ := ih (connStep s e) hs1
    refine ⟨ha, ?_⟩
    show (connRun (connStep s e) evs).packetsWritten = _
    rw [hb, hs2]
    simp only [countWrites, List.countP_cons]
    cases e <;> simp [List.countP_nil, List.countP_cons] <;> omega

/-- C7: counter monotonicity.  After any event trace the `PacketsWritten`
counter equals the number of `WritePacket` calls (so it is `i+1` after
`i+1` calls); `PacketsAcked ≤ PacketsWritten` always; on the message channel
`MessagesReceived ≤ MessagesSent` (at most the `N` enqueued messages are
ever delivered) and `MessagesEarly` stays `0` while every received id is
within the receive window. -/
theorem C7_counter_monotonicity {α : Type} (evs : List ConnEvent)
    (N cap fuel : Nat) (sent : Nat → α) (pkts : List (List (Nat × α)))
    (hcap : N ≤ cap) (hfuel : N + 1 ≤ fuel)
    (hgen : ∀ pkt ∈ pkts, ∀ m ∈ pkt, m.1 < N ∧ m.2 = sent m.1) :
    (connRun connInit evs).packetsWritten = countWrites evs ∧
    (connRun connInit evs).packetsAcked
      ≤ (connRun connInit evs).packetsWritten ∧
    (msgRun cap fuel (msgInit cap) [] pkts).2.length ≤ N ∧
    (msgRun cap fuel (msgInit cap) [] pkts).1.earlyCount = 0 := by
  obtain ⟨⟨h1, h2⟩, h3⟩ := connRun_inv evs connInit ⟨rfl, rfl⟩
  obtain ⟨⟨hout, hnext, -, hearly, -⟩, -⟩ :=
    msgRun_inv N cap fuel sent hcap hfuel pkts (msgInit cap) []
      (msgInit_inv N cap sent) (msgInit_quiescent cap) hgen
  refine ⟨by rw [h3]; simp [connInit], ?_, ?_, hearly⟩
  · rw [h1, ← h2]
    exact List.count_le_length _ _
  · rw [hout]
    simp
    omega

/-- Witness for C7: three writes interleaved with an ack-bearing read, and
a one-packet channel trace. -/
theorem C7_counter_monotonicity_witness :
    ((2 : Nat) ≤ 2 ∧ (2 : Nat) + 1 ≤ 3 ∧
     (∀ pkt ∈ [[((0 : Nat), (100 : Nat))]], ∀ m ∈ pkt,
       m.1 < 2 ∧ m.2 = (fun i => 100 + i : Nat → Nat) m.1)) ∧
    ((connRun connInit [ConnEvent.write, ConnEvent.read 0 3, ConnEvent.write,
        ConnEvent.write]).packetsWritten
      = countWrites [ConnEvent.write, ConnEvent.read 0 3, ConnEvent.write,
        ConnEvent.write] ∧
    (connRun connInit [ConnEvent.write, ConnEvent.read 0 3, ConnEvent.write,
        ConnEvent.write]).packetsAcked
      ≤ (connRun connInit [ConnEvent.write, ConnEvent.read 0 3,
          ConnEvent.write, ConnEvent.write]).packetsWritten ∧
    (msgRun 2 3 (msgInit 2) [] [[((0 : Nat), (100 : Nat))]]).2.length ≤ 2 ∧
    (msgRun 2 3 (msgInit 2) [] [[((0 : Nat), (100 : Nat))]]).1.earlyCount
      = 0) :=
  ⟨⟨by decide, by decide, by decide⟩,
   C7_counter_monotonicity
     [ConnEvent.write, ConnEvent.read 0 3, ConnEvent.write, ConnEvent.write]
     2 2 3 (fun i => 100 + i) [[(0, 100)]] (by decide) (by decide)
     (by decide)⟩

/-! ### Block fragmentation and reassembly

Modelled from the spec: the block state machines of §4.6 are absent from
the tree.  The sender splits a large block into `ceil(size / fragmentSize)`
fragments, each exactly `fragmentSize` bytes except a shorter final one;
the receiver writes each fragment into `buffer[index * fragmentSize ..]`,
marks `received[index]`, counts distinct fragments (duplicates are
idempotent) and synthesizes the block message when
`received_count == total_fragments`. -/

/-- Fragment `i` of a block: bytes `i*fs .. min((i+1)*fs, size) - 1`. -/
def fragmentBytes (data : List Nat) (fs i : Nat) : List Nat :=
  (data.drop (i * fs)).take fs

/-- `total_fragments = ceil(size / fragmentSize)` (spec §4.6). -/
def numFragments (size fs : Nat) : Nat := (size + fs - 1) / fs

structure BlockRecvState where
  received : List Bool
  receivedCount : Nat
  buffer : Nat → Nat

def fragInit (total : Nat) : BlockRecvState :=
  ⟨List.replicate total false, 0, fun _ => 0⟩

/-- Process one arriving fragment (spec §4.6 receiver): duplicates are
idempotent; a new fragment is copied into the buffer at
`index * fragmentSize` and counted. -/
def fragReceive (fs : Nat) (st : BlockRecvState) (frag : Nat × List Nat) :
    BlockRecvState :=
  if st.received.getD frag.1 false then st
  else
    { received := st.received.set frag.1 true,
      receivedCount := st.receivedCount + 1,
      buffer := fun j =>
        if frag.1 * fs ≤ j ∧ j < frag.1 * fs + frag.2.length
        then frag.2.getD (j - frag.1 * fs) 0
        else st.buffer j }

/-- Process the whole arrival sequence, counting how many times the
completion condition `received_count == total_fragments` fires (each firing
synthesizes one block message). -/
def fragRun (fs total : Nat) : BlockRecvState → Nat →
    List (Nat × List Nat) → BlockRecvState × Nat
  | st, cmp, [] => (st, cmp)
  | st, cmp, f :: rest =>
      let st1 := fragReceive fs st f
      fragRun fs total st1
        (if st1.receivedCount = total ∧ ¬ st.receivedCount = total
         then cmp + 1 else cmp) rest

/-- The receiver state machine applied to an arrival sequence, from the
idle state. -/
def blockReassembly (fs total : Nat) (arr : List (Nat × List Nat)) :
    BlockRecvState × Nat :=
  fragRun fs total (fragInit total) 0 arr

/-- Reassembly invariant: flag count is the distinct-fragment count, the
completion counter has fired exactly when the count reached the total, and
every byte of every received fragment is correct in the buffer. -/
def FragInv (data : List Nat) (fs total : Nat) (st : BlockRecvState)
    (cmp : Nat) : Prop :=
  st.received.length = total ∧
  st.receivedCount = st.received.count true ∧
  st.receivedCount ≤ total ∧
  cmp = (if st.receivedCount = total then 1 else 0) ∧
  ∀ i, i < total → st.received.getD i false = true →
    ∀ t, t < (fragmentBytes data fs i).length →
      st.buffer (i * fs + t) = data.getD (i * fs + t) 0

theorem getD_default_irrel {β : Type} (l : List β) (i : Nat)
    (hi : i < l.length) (d d2 : β) : l.getD i d = l.getD i d2 := by
  simp [List.getD_eq_getElem?_getD, List.getElem?_eq_getElem hi]

theorem count_true_lt_of_false (l : List Bool) :
    ∀ i, i < l.length → l.getD i false = false →
    l.count true < l.length := by
  induction l with
  | nil => intro i hi _; simp at hi
  | cons b t ih =>
    intro i hi hf
    cases i with
    | zero =>
      have hb : b = false := by simpa using hf
      subst hb
      have := List.count_le_length true t
      simp [List.count_cons]
      omega
    | succ i =>
      have ht := ih i (by simpa using hi) (by simpa using hf)
      simp only [List.count_cons, List.length_cons]
      cases b <;> simp <;> omega

theorem length_fragmentBytes (data : List Nat) (fs i : Nat) :
    (fragmentBytes data fs i).length = min fs (data.length - i * fs) := by
  simp [fragmentBytes]

/-- One genuine fragment preserves the reassembly invariant, keeps every
received flag, and sets its own. -/
theorem fragReceive_inv (data : List Nat) (fs total : Nat)
    (st : BlockRecvState) (cmp : Nat) (f : Nat × List Nat)
    (hinv : FragInv data fs total st cmp)
    (hf1 : f.1 < total) (hf2 : f.2 = fragmentBytes data fs f.1) :
    FragInv data fs total (fragReceive fs st f)
      (if (fragReceive fs st f).receivedCount = total ∧
          ¬ st.receivedCount = total then cmp + 1 else cmp) ∧
    (∀ i, st.received.getD i false = true →
      (fragReceive fs st f).received.getD i false = true) ∧
    (fragReceive fs st f).received.getD f.1 false = true := by
  obtain ⟨hlen, hcnt, hle, hcmp, hbuf⟩ := hinv
  unfold fragReceive
  by_cases hrec : st.received.getD f.1 false = true
  · rw [if_pos hrec]
    have hccond : ¬ (st.receivedCount = total ∧ ¬ st.receivedCount = total) := by
      tauto
    rw [if_neg hccond]
    exact ⟨⟨hlen, hcnt, hle, hcmp, hbuf⟩, fun i h => h, hrec⟩
  · rw [if_neg hrec]
    have hrecF : st.received.getD f.1 false = false := by
      cases hb : st.received.getD f.1 false
      · rfl
      · exact absurd hb hrec
    have hcountlt : st.received.count true < st.received.length :=
      count_true_lt_of_false st.received f.1 (by omega) hrecF
    have hstrict : st.receivedCount < total := by omega
    have hcount1 : (st.received.set f.1 true).count true
        = st.received.count true + 1 := by
      apply count_true_set st.received f.1 (by omega)
      rw [getD_default_irrel st.received f.1 (by omega) true false]
      exact hrecF
    refine ⟨⟨by simp [hlen], ?_, ?_, ?_, ?_⟩, ?_, ?_⟩
    · show st.receivedCount + 1 = (st.received.set f.1 true).count true
      rw [hcount1]
      omega
    · show st.receivedCount + 1 ≤ total
      omega
    · show (if st.receivedCount + 1 = total ∧ ¬ st.receivedCount = total
            then cmp + 1 else cmp)
        = (if st.receivedCount + 1 = total then 1 else 0)
      have hne : ¬ st.receivedCount = total := by omega
      rw [hcmp, if_neg hne]
      by_cases h1 : st.receivedCount + 1 = total <;> simp [h1, hne]
    · intro i hi hflag t ht
      show (if f.1 * fs ≤ i * fs + t ∧ i * fs + t < f.1 * fs + f.2.length
            then f.2.getD (i * fs + t - f.1 * fs) 0
            else st.buffer (i * fs + t)) = data.getD (i * fs + t) 0
      have hflag2 : (st.received.set f.1 true).getD i false = true := hflag
      rw [getD_set_poly] at hflag2
      by_cases hif : i = f.1
      · subst hif
        have hlen2 : f.2.length = (fragmentBytes data fs f.1).length := by
          rw [hf2]
        rw [if_pos ⟨by omega, by omega⟩]
        rw [hf2]
        unfold fragmentBytes
        rw [show f.1 * fs + t - f.1 * fs = t by omega]
        have htfs : t < fs := by
          rw [length_fragmentBytes] at ht
          omega
        simp only [List.getD_eq_getElem?_getD]
        rw [List.getElem?_take_of_lt htfs, List.getElem?_drop]
      · have hflagOld : st.received.getD i false = true := by
          rw [if_neg (by intro hc; exact hif hc.1.symm)] at hflag2
          exact hflag2
        rw [if_neg ?hc]
        · exact hbuf i hi hflagOld t ht
        case hc =>
          rintro ⟨hc1, hc2⟩
          have hlen2 : f.2.length ≤ fs := by
            rw [hf2, length_fragmentBytes]
            omega
          rcases Nat.lt_or_ge i f.1 with hlt | hge
          · have hmul : (i + 1) * fs ≤ f.1 * fs :=
              Nat.mul_le_mul_right fs hlt
            rw [Nat.succ_mul] at hmul
            have htlt : t < fs := by
              rw [length_fragmentBytes] at ht
              omega
            omega
          · have hgt : f.1 + 1 ≤ i := by omega
            have hmul : (f.1 + 1) * fs ≤ i * fs :=
              Nat.mul_le_mul_right fs hgt
            rw [Nat.succ_mul] at hmul
            omega
    · intro i h
      show (st.received.set f.1 true).getD i false = true
      rw [getD_set_poly]
      by_cases hc : f.1 = i ∧ f.1 < st.received.length
      · rw [if_pos hc]
      · rw [if_neg hc]
        exact h
    · show (st.received.set f.1 true).getD f.1 false = true
      rw [getD_set_poly, if_pos ⟨rfl, by omega⟩]

theorem getD_replicate_self {β : Type} (n j : Nat) (c : β) :
    (List.replicate n c).getD j c = c := by
  simp only [List.getD_eq_getElem?_getD, List.getElem?_replicate]
  by_cases h : j < n <;> simp [h]

theorem count_true_eq_length (l : List Bool)
    (h : ∀ i, i < l.length → l.getD i false = true) :
    l.count true = l.length := by
  induction l with
  | nil => simp
  | cons b t ih =>
    have hb : b = true := by
      have := h 0 (by simp)
      simpa using this
    subst hb
    have ht := ih (fun i hi => by
      have := h (i + 1) (by simpa using hi)
      simpa using this)
    simp [List.count_cons, ht]

theorem fragInit_inv (data : List Nat) (fs total : Nat) (htot : 1 ≤ total) :
    FragInv data fs total (fragInit total) 0 := by
  refine ⟨by simp [fragInit], by simp [fragInit, List.count_replicate],
    by simp [fragInit], ?_, ?_⟩
  · show (0 : Nat) = if (fragInit total).receivedCount = total then 1 else 0
    rw [if_neg (by simp [fragInit]; omega)]
  · intro i hi hflag t ht
    exfalso
    have : (fragInit total).received.getD i false = false := by
      show (List.replicate total false).getD i false = false
      exact getD_replicate_self total i false
    rw [this] at hflag
    exact Bool.noConfusion hflag

/-- Running all genuine fragments preserves the invariant and makes every
arriving fragment index received. -/
theorem fragRun_inv (data : List Nat) (fs total : Nat) :
    ∀ (arr : List (Nat × List Nat)) (st : BlockRecvState) (cmp : Nat),
    FragInv data fs total st cmp →
    (∀ f ∈ arr, f.1 < total ∧ f.2 = fragmentBytes data fs f.1) →
    FragInv data fs total (fragRun fs total st cmp arr).1
      (fragRun fs total st cmp arr).2 ∧
    (∀ i, st.received.getD i false = true →
      (fragRun fs total st cmp arr).1.received.getD i false = true) ∧
    (∀ f ∈ arr,
      (fragRun fs total st cmp arr).1.received.getD f.1 false = true) := by
  intro arr
  induction arr with
  | nil =>
    intro st cmp h _
    exact ⟨h, fun i h2 => h2, by simp⟩
  | cons f rest ih =>
    intro st cmp h hgen
    obtain ⟨h1, h2, h3⟩ := fragReceive_inv data fs total st cmp f h
      (hgen f (List.mem_cons_self f rest)).1
      (hgen f (List.mem_cons_self f rest)).2
    have hrun : fragRun fs total st cmp (f :: rest)
        = fragRun fs total (fragReceive fs st f)
            (if (fragReceive fs st f).receivedCount = total ∧
                ¬ st.receivedCount = total then cmp + 1 else cmp) rest := rfl
    rw [hrun]
    obtain ⟨ga, gb, gc⟩ := ih (fragReceive fs st f) _ h1
      (fun x hx => hgen x (List.mem_cons_of_mem _ hx))
    refine ⟨ga, fun i hi => gb i (h2 i hi), ?_⟩
    intro x hx
    rcases List.mem_cons.mp hx with rfl | hx2
    · exact gb x.1 h3
    · exact gc x hx2

/-- Complete reassembly: any arrival order with duplicates that covers all
fragments rebuilds the block byte-for-byte and completes exactly once. -/
theorem blockReassembly_complete (data : List Nat) (fs : Nat)
    (arr : List (Nat × List Nat)) (hfs : 1 ≤ fs) (hsz : 1 ≤ data.length)
    (hgen : ∀ f ∈ arr, f.1 < numFragments data.length fs ∧
      f.2 = fragmentBytes data fs f.1)
    (hcov : ∀ i, i < numFragments data.length fs → ∃ f ∈ arr, f.1 = i) :
    (blockReassembly fs (numFragments data.length fs) arr).1.receivedCount
        = numFragments data.length fs ∧
    (blockReassembly fs (numFragments data.length fs) arr).2 = 1 ∧
    ∀ j, j < data.length →
      (blockReassembly fs (numFragments data.length fs) arr).1.buffer j
        = data.getD j 0 := by
  have h0 : 0 < fs := by omega
  have htot1 : 1 ≤ numFragments data.length fs := by
    unfold numFragments
    rw [Nat.le_div_iff_mul_le h0]
    omega
  unfold blockReassembly
  obtain ⟨⟨hlen, hcnt, hle, hcmp, hbuf⟩, -, hflags⟩ := fragRun_inv data fs
    (numFragments data.length fs) arr (fragInit _) 0
    (fragInit_inv data fs _ htot1) hgen
  have hall : ∀ i, i < numFragments data.length fs →
      (fragRun fs (numFragments data.length fs)
        (fragInit (numFragments data.length fs)) 0
        arr).1.received.getD i false = true := by
    intro i hi
    obtain ⟨f, hf, hfi⟩ := hcov i hi
    have := hflags f hf
    rw [hfi] at this
    exact this
  have hcountfull :
      (fragRun fs (numFragments data.length fs)
        (fragInit (numFragments data.length fs)) 0 arr).1.received.count true
      = (fragRun fs (numFragments data.length fs)
        (fragInit (numFragments data.length fs)) 0
        arr).1.received.length := by
    apply count_true_eq_length
    intro i hi
    exact hall i (by omega)
  have hctotal :
      (fragRun fs (numFragments data.length fs)
        (fragInit (numFragments data.length fs)) 0
        arr).1.receivedCount = numFragments data.length fs := by
    rw [hcnt, hcountfull, hlen]
  refine ⟨hctotal, by rw [hcmp, if_pos hctotal], ?_⟩
  intro j hj
  have hdm := Nat.div_add_mod j fs
  rw [Nat.mul_comm] at hdm
  have hmlt := Nat.mod_lt j h0
  have hceil : data.length ≤ ((data.length + fs - 1) / fs) * fs := by
    have hd2 := Nat.div_add_mod (data.length + fs - 1) fs
    rw [Nat.mul_comm] at hd2
    have hm2 := Nat.mod_lt (data.length + fs - 1) h0
    generalize hP : ((data.length + fs - 1) / fs) * fs = P at hd2 ⊢
    omega
  have hile : j / fs < numFragments data.length fs := by
    unfold numFragments
    rw [Nat.div_lt_iff_lt_mul h0]
    generalize hP : ((data.length + fs - 1) / fs) * fs = P at hceil ⊢
    omega
  have hflagi := hall (j / fs) hile
  have htlt : j % fs < (fragmentBytes data fs (j / fs)).length := by
    rw [length_fragmentBytes]
    generalize hP : (j / fs) * fs = P at hdm ⊢
    omega
  have hb := hbuf (j / fs) hile hflagi (j % fs) htlt
  rw [show j / fs * fs + j % fs = j from hdm] at hb
  exact hb

theorem map_range_eq_of_getD (l : List Nat) (f : Nat → Nat)
    (h : ∀ j, j < l.length → f j = l.getD j 0) :
    (List.range l.length).map f = l := by
  apply List.ext_getElem (by simp)
  intro i h1 h2
  simp only [List.getElem_map, List.getElem_range]
  have hi := h i h2
  rw [List.getD_eq_getElem?_getD, List.getElem?_eq_getElem h2] at hi
  simpa using hi

/-- C2: for every block of size in `[1, maxBlockSize]` and every fragment
arrival order with duplicates covering all fragments, the receiver
reassembles the block byte-for-byte with the original size, synthesizes the
block message exactly once, and — carried at its message id `b` through the
in-order receive queue alongside small messages — it is delivered exactly
once, at position `b` of the delivered stream. -/
theorem C2_block_reassembly (data : List Nat) (fs maxBlockSize : Nat)
    (arr : List (Nat × List Nat))
    (hfs : 1 ≤ fs) (hsz : 1 ≤ data.length) (hszM : data.length ≤ maxBlockSize)
    (hgen : ∀ f ∈ arr, f.1 < numFragments data.length fs ∧
      f.2 = fragmentBytes data fs f.1)
    (hcov : ∀ i, i < numFragments data.length fs → ∃ f ∈ arr, f.1 = i) :
    ((List.range data.length).map
        (blockReassembly fs (numFragments data.length fs) arr).1.buffer
      = data ∧
     (blockReassembly fs (numFragments data.length fs) arr).1.receivedCount
      = numFragments data.length fs ∧
     (blockReassembly fs (numFragments data.length fs) arr).2 = 1) ∧
    (∀ (N cap fuel b : Nat) (sent : Nat → List Nat)
      (pkts : List (List (Nat × List Nat))),
      b < N → N ≤ cap → N + 1 ≤ fuel →
      sent b = (List.range data.length).map
        (blockReassembly fs (numFragments data.length fs) arr).1.buffer →
      (∀ pkt ∈ pkts, ∀ m ∈ pkt, m.1 < N ∧ m.2 = sent m.1) →
      (∀ i, i < N → ∃ pkt ∈ pkts, ∃ m ∈ pkt, m.1 = i) →
      (msgRun cap fuel (msgInit cap) [] pkts).2 = (List.range N).map sent ∧
      (msgRun cap fuel (msgInit cap) [] pkts).2[b]? = some data) := by
  obtain ⟨hcount, hcomp, hbytes⟩ :=
    blockReassembly_complete data fs arr hfs hsz hgen hcov
  have hmap : (List.range data.length).map
      (blockReassembly fs (numFragments data.length fs) arr).1.buffer
      = data :=
    map_range_eq_of_getD data _ hbytes
  refine ⟨⟨hmap, hcount, hcomp⟩, ?_⟩
  intro N cap fuel b sent pkts hb hcap hfuel hsentb hgen2 hcov2
  obtain ⟨hout, -, -⟩ := msgRun_complete N cap fuel sent pkts hcap hfuel
    hgen2 hcov2
  refine ⟨hout, ?_⟩
  rw [hout]
  rw [List.getElem?_map, List.getElem?_range hb]
  rw [show ((some b).map sent : Option (List Nat)) = some (sent b) from rfl]
  rw [hsentb, hmap]

def c2data : List Nat := [1, 2, 3]

def c2arr : List (Nat × List Nat) := [(1, [3]), (0, [1, 2]), (1, [3])]

/-- Witness for C2: the 3-byte block `[1,2,3]` with fragment size 2
(2 fragments), arriving out of order with a duplicate. -/
theorem C2_block_reassembly_witness :
    (1 ≤ 2 ∧ 1 ≤ c2data.length ∧ c2data.length ≤ 4 ∧
     (∀ f ∈ c2arr, f.1 < numFragments c2data.length 2 ∧
        f.2 = fragmentBytes c2data 2 f.1) ∧
     (∀ i, i < numFragments c2data.length 2 → ∃ f ∈ c2arr, f.1 = i)) ∧
    (((List.range c2data.length).map
        (blockReassembly 2 (numFragments c2data.length 2) c2arr).1.buffer
      = c2data ∧
     (blockReassembly 2 (numFragments c2data.length 2) c2arr).1.receivedCount
      = numFragments c2data.length 2 ∧
     (blockReassembly 2 (numFragments c2data.length 2) c2arr).2 = 1) ∧
    (∀ (N cap fuel b : Nat) (sent : Nat → List Nat)
      (pkts : List (List (Nat × List Nat))),
      b < N → N ≤ cap → N + 1 ≤ fuel →
      sent b = (List.range c2data.length).map
        (blockReassembly 2 (numFragments c2data.length 2) c2arr).1.buffer →
      (∀ pkt ∈ pkts, ∀ m ∈ pkt, m.1 < N ∧ m.2 = sent m.1) →
      (∀ i, i < N → ∃ pkt ∈ pkts, ∃ m ∈ pkt, m.1 = i) →
      (msgRun cap fuel (msgInit cap) [] pkts).2 = (List.range N).map sent ∧
      (msgRun cap fuel (msgInit cap) [] pkts).2[b]? = some c2data)) :=
  ⟨⟨by decide, by decide, by decide, by decide, by decide⟩,
   C2_block_reassembly c2data 2 4 c2arr (by decide) (by decide) (by decide)
     (by decide) (by decide)⟩
